import Mathlib

/-!
# ft_printf (42 project): a shallow embedding and its verified properties

The development models the formatter of `src/Projects/Algorithm/libftc/ft_printf`:
`ft_putchar`, `ft_putstr`, `ft_putnbr`, `ft_putnbr_base`, `ft_putptr_hex`, `ft_putptr`,
`handle_format` and `ft_printf`.

Modelling conventions.

* A byte is a natural number; a C string is the list of its bytes, the terminating
  NUL being implicit at the end of the list.  Reading a string at an index past its
  end yields `0`, and a `0` byte inside a list is a terminator as well, exactly as for
  the C code that scans until it reads `0`.
* File descriptor 1 accepts every byte: `write(1, buf, len)` appends the `len` bytes and
  returns `len`.  A renderer is described by the bytes it appends, in order, and the
  `int` it returns (`Emit`).
* The `int` counters (`count`, `i`) are unbounded integers: outputs of `2^31` bytes
  or more are outside the model.
* The C recursion is modelled with a recursion budget (`fuel`): every call spends one
  unit, and a call with no budget left yields `Outcome.nofuel`.  Undefined behaviour of
  C (division by zero, a missing or ill-typed variadic argument, signed overflow)
  yields `Outcome.undefined`.
* The `va_list` is an ordered cursor shared by `ft_printf` and `handle_format` (as on
  the System V x86-64 ABI, where `va_list` is an array type): an argument read by
  `handle_format` is consumed for the caller too.
* The second copy of the formatter, under `src/libftc/ft_printf`, is modelled in the
  namespace `Libftc`; its `ft_putstr` advances the index by the return value of `write`.
  Its `ft_putchar.c` is not among the sources and is modelled from the specification.
* The recursion depth of a call is the least budget with which it returns
  (`returns_at_depth`); the arithmetic of `ft_putnbr` is observed through
  `ft_putnbr_traced`, the same function recording its evaluations and recursive calls.
-/

namespace FtPrintf

/-! ## Results of a computation -/

/-- Result of running a piece of C code under a recursion budget. -/
inductive Outcome (α : Type) where
  | done (a : α)
  | undefined
  | nofuel
  deriving DecidableEq, Repr

/-- Sequencing of two computations. -/
def Outcome.bind {α β : Type} (x : Outcome α) (f : α → Outcome β) : Outcome β :=
  match x with
  | .done a => f a
  | .undefined => .undefined
  | .nofuel => .nofuel

/-- Bytes appended to file descriptor 1, in order, together with the returned `int`. -/
structure Emit where
  out : List Nat
  ret : Int
  deriving DecidableEq, Repr

/-- Nothing written, count `0` (the state after `count = 0`). -/
def Emit.nil : Emit := ⟨[], 0⟩

/-- Effect of running `a` and then `b`, the counts being added (`count += ...`). -/
def Emit.seq (a b : Emit) : Emit := ⟨a.out ++ b.out, a.ret + b.ret⟩

/-! ## C strings and bytes -/

/-- ASCII bytes of a string literal of the source. -/
def bytes (s : String) : List Nat := s.toList.map Char.toNat

/-- Read of `s[i]` for a C string: the byte at index `i`, the terminator past the end. -/
def cstr_get (s : List Nat) (i : Nat) : Nat := s.getD i 0

/-- Number of bytes before the first terminator (`while (s[len]) len++`). -/
def cstr_len : List Nat → Nat
  | [] => 0
  | c :: cs => if c = 0 then 0 else cstr_len cs + 1

/-- Conversion of an `int` to the byte of the `char` it is converted to (low 8 bits). -/
def int_to_char (v : Int) : Nat := (v % 256).toNat

/-- Smallest value of `int`. -/
def INT_MIN : Int := -2147483648

/-- Largest value of `int`. -/
def INT_MAX : Int := 2147483647

/-- Number of values of `unsigned int`. -/
def UINT_RANGE : Nat := 4294967296

/-- Number of values of `unsigned long`. -/
def ULONG_RANGE : Nat := 18446744073709551616

/-! ## The byte sink -/

/-- Call `write(1, buf, len)` with `buf` holding exactly `len` bytes: all of them are
accepted, the return value is `len`. -/
def write (buf : List Nat) : Emit := ⟨buf, buf.length⟩

/-! ## Renderers -/

/-- `ft_putchar(char c)`: `return (write(1, &c, 1));`. -/
def ft_putchar (c : Nat) : Emit := write [c]

/-- Loop of `ft_putstr`, on the suffix `s + count`:
`while (s[count]) { write(1, &s[count], 1); count++; }`. The count is the number of
iterations. -/
def ft_putstr_loop : List Nat → Emit
  | [] => Emit.nil
  | c :: cs =>
    if c = 0 then Emit.nil
    else
      let w := write [c]
      let r := ft_putstr_loop cs
      ⟨w.out ++ r.out, 1 + r.ret⟩

/-- `ft_putstr(const char *s)`; `none` is the null pointer. -/
def ft_putstr (s : Option (List Nat)) : Emit :=
  match s with
  | none => write (bytes "(null)")
  | some cs => ft_putstr_loop cs

/-- Negation `-n` of an `int`: undefined when the result is not representable. -/
def int_neg (n : Int) : Outcome Int :=
  if n = INT_MIN then .undefined else .done (-n)

/-- `ft_putnbr(int n)`. -/
def ft_putnbr : Nat → Int → Outcome Emit
  | 0, _ => .nofuel
  | fuel + 1, n =>
    if n = -2147483648 then
      .done (ft_putstr (some (bytes "-2147483648")))
    else
      (if n < 0 then (int_neg n).bind fun m => .done (ft_putchar (Char.toNat '-'), m)
        else .done (Emit.nil, n)).bind fun (c1, n1) =>
      (if n1 ≥ 10 then ft_putnbr fuel (Int.tdiv n1 10) else .done Emit.nil).bind fun c2 =>
      .done ((c1.seq c2).seq (ft_putchar (int_to_char (Int.tmod n1 10 + Char.toNat '0'))))

/-- `ft_putnbr_base(unsigned int n, const char *base)`. -/
def ft_putnbr_base : Nat → Nat → List Nat → Outcome Emit
  | 0, _, _ => .nofuel
  | fuel + 1, n, base =>
    let base_len := cstr_len base
    if base_len = 0 then
      -- `n >= 0` holds, and `n / 0` is evaluated
      .undefined
    else
      (if n ≥ base_len then ft_putnbr_base fuel (n / base_len) base
        else .done Emit.nil).bind fun c =>
      .done (c.seq (ft_putchar (cstr_get base (n % base_len))))

/-- `ft_putptr_hex(unsigned long n)`. -/
def ft_putptr_hex : Nat → Nat → Outcome Emit
  | 0, _ => .nofuel
  | fuel + 1, n =>
    (if n ≥ 16 then ft_putptr_hex fuel (n / 16) else .done Emit.nil).bind fun c =>
    .done (c.seq (ft_putchar (cstr_get (bytes "0123456789abcdef") (n % 16))))

/-- `ft_putptr(void *ptr)`, the pointer being given by its address. -/
def ft_putptr (fuel : Nat) (address : Nat) : Outcome Emit :=
  let c0 := ft_putstr (some (bytes "0x"))
  if address = 0 then .done (c0.seq (ft_putchar (Char.toNat '0')))
  else (ft_putptr_hex fuel address).bind fun c => .done (c0.seq c)

/-! ## Variadic arguments -/

/-- One value of the variadic argument list, with the type it was passed at. -/
inductive Arg where
  /-- An `int` (also a `char` or `short`, promoted). -/
  | int (v : Int)
  /-- An `unsigned int`. -/
  | uint (v : Nat)
  /-- A `char *`: `none` is `NULL`, `some s` a C string. -/
  | str (s : Option (List Nat))
  /-- A `void *`, given by its address. -/
  | ptr (address : Nat)
  deriving DecidableEq, Repr

/-- Reinterpretation of an `unsigned int` as the `int` with the same 32 bits. -/
def uint_to_int (v : Nat) : Int :=
  if v % UINT_RANGE < 2147483648 then (v % UINT_RANGE : Nat) else (v % UINT_RANGE : Nat) - 4294967296

/-- Reinterpretation of an `int` as the `unsigned int` with the same 32 bits. -/
def int_to_uint (v : Int) : Nat := (v % 4294967296).toNat

/-- `va_arg(args, int)`: the next argument, read as an `int`. -/
def va_arg_int : List Arg → Outcome (Int × List Arg)
  | Arg.int v :: rest => .done (v, rest)
  | Arg.uint v :: rest => .done (uint_to_int v, rest)
  | _ => .undefined

/-- `va_arg(args, unsigned int)`: the next argument, read as an `unsigned int`. -/
def va_arg_uint : List Arg → Outcome (Nat × List Arg)
  | Arg.uint v :: rest => .done (v, rest)
  | Arg.int v :: rest => .done (int_to_uint v, rest)
  | _ => .undefined

/-- `va_arg(args, char *)`. -/
def va_arg_str : List Arg → Outcome (Option (List Nat) × List Arg)
  | Arg.str s :: rest => .done (s, rest)
  | _ => .undefined

/-- `va_arg(args, void *)`. -/
def va_arg_ptr : List Arg → Outcome (Nat × List Arg)
  | Arg.ptr a :: rest => .done (a, rest)
  | _ => .undefined

/-! ## Dispatcher and scanner -/

/-- `handle_format(char specifier, va_list args)`: the bytes written and the count
returned, with the argument cursor after the call. -/
def handle_format (fuel : Nat) (specifier : Nat) (args : List Arg) :
    Outcome (Emit × List Arg) :=
  if specifier = Char.toNat 'c' then
    (va_arg_int args).bind fun (v, rest) => .done (ft_putchar (int_to_char v), rest)
  else if specifier = Char.toNat 's' then
    (va_arg_str args).bind fun (s, rest) => .done (ft_putstr s, rest)
  else if specifier = Char.toNat 'p' then
    (va_arg_ptr args).bind fun (a, rest) =>
      (ft_putptr fuel a).bind fun c => .done (c, rest)
  else if specifier = Char.toNat 'd' ∨ specifier = Char.toNat 'i' then
    (va_arg_int args).bind fun (v, rest) =>
      (ft_putnbr fuel v).bind fun c => .done (c, rest)
  else if specifier = Char.toNat 'u' then
    (va_arg_uint args).bind fun (v, rest) =>
      (ft_putnbr_base fuel v (bytes "0123456789")).bind fun c => .done (c, rest)
  else if specifier = Char.toNat 'x' then
    (va_arg_uint args).bind fun (v, rest) =>
      (ft_putnbr_base fuel v (bytes "0123456789abcdef")).bind fun c => .done (c, rest)
  else if specifier = Char.toNat 'X' then
    (va_arg_uint args).bind fun (v, rest) =>
      (ft_putnbr_base fuel v (bytes "0123456789ABCDEF")).bind fun c => .done (c, rest)
  else if specifier = Char.toNat '%' then
    .done (ft_putchar (Char.toNat '%'), args)
  else
    .done (Emit.nil, args)

/-- The `while (format[i])` loop of `ft_printf`, on the suffix `format + i`, with the
argument cursor: the bytes written and the count accumulated from this position on,
and the cursor when the terminator is reached. -/
def ft_printf_loop (fuel : Nat) : List Nat → List Arg → Outcome (Emit × List Arg)
  | [], args => .done (Emit.nil, args)
  | [c], args =>
    if c = 0 then .done (Emit.nil, args)
    else
      -- `format[i + 1]` is the terminator: the `else` branch, also for `%`
      .done (write [c], args)
  | c :: s :: rest, args =>
    if c = 0 then .done (Emit.nil, args)
    else if c = Char.toNat '%' ∧ s ≠ 0 then
      (handle_format fuel s args).bind fun (e, args1) =>
      (ft_printf_loop fuel rest args1).bind fun (r, args2) =>
      .done (e.seq r, args2)
    else
      (ft_printf_loop fuel (s :: rest) args).bind fun (r, args2) =>
      .done ((write [c]).seq r, args2)

/-- `ft_printf(const char *format, ...)`: the bytes written and the count returned. -/
def ft_printf (fuel : Nat) (format : List Nat) (args : List Arg) : Outcome Emit :=
  (ft_printf_loop fuel format args).bind fun (e, _) => .done e

/-! ## Reference notions used to state the properties -/

/-- Digits of `v` in radix `N`, most significant first, as numbers below `N`; the value
`0` has the single digit `0`. -/
def numeral (N v : Nat) : List Nat :=
  if v = 0 then [0] else (Nat.digits N v).reverse

/-- Canonical decimal text of a natural number, as ASCII bytes. -/
def decimal (v : Nat) : List Nat := (numeral 10 v).map fun d => d + Char.toNat '0'

/-- Canonical decimal text of an integer: `-` exactly for a negative one, then the
digits of the absolute value. -/
def decimal_int (n : Int) : List Nat :=
  (if n < 0 then [Char.toNat '-'] else []) ++ decimal n.natAbs

/-- Symbol of a hexadecimal digit in lowercase: `0` to `9`, then `a` to `f`. -/
def hex_symbol_lower (d : Nat) : Nat :=
  if d < 10 then Char.toNat '0' + d else Char.toNat 'a' + (d - 10)

/-- Symbol of a hexadecimal digit in uppercase: `0` to `9`, then `A` to `F`. -/
def hex_symbol_upper (d : Nat) : Nat :=
  if d < 10 then Char.toNat '0' + d else Char.toNat 'A' + (d - 10)

/-- Lowercase hexadecimal text of a natural number, without leading zeros. -/
def hex_lower (v : Nat) : List Nat := (numeral 16 v).map hex_symbol_lower

/-- Uppercase hexadecimal text of a natural number, without leading zeros. -/
def hex_upper (v : Nat) : List Nat := (numeral 16 v).map hex_symbol_upper

/-- Digit that a lowercase hexadecimal symbol stands for. -/
def hex_symbol_value (c : Nat) : Nat :=
  if c ≤ Char.toNat '9' then c - Char.toNat '0' else c - Char.toNat 'a' + 10

/-- Number that a lowercase hexadecimal text, most significant digit first, stands for. -/
def hex_value (cs : List Nat) : Nat := Nat.ofDigits 16 (cs.map hex_symbol_value).reverse

/-- Specifiers that read one argument. -/
def consuming (s : Nat) : Prop := s ∈ bytes "cspdiuxX"

instance (s : Nat) : Decidable (consuming s) := by unfold consuming; infer_instance

/-- An argument value has the type (and the range of values of that type) that the
specifier `s` reads. -/
def fits (s : Nat) (a : Arg) : Prop :=
  match a with
  | .int v => (s = Char.toNat 'c' ∨ s = Char.toNat 'd' ∨ s = Char.toNat 'i') ∧
      INT_MIN ≤ v ∧ v ≤ INT_MAX
  | .uint v => (s = Char.toNat 'u' ∨ s = Char.toNat 'x' ∨ s = Char.toNat 'X') ∧
      v < UINT_RANGE
  | .str none => s = Char.toNat 's'
  | .str (some cs) => s = Char.toNat 's' ∧ 0 ∉ cs
  | .ptr a => s = Char.toNat 'p' ∧ a < ULONG_RANGE

instance (s : Nat) (a : Arg) : Decidable (fits s a) := by
  unfold fits; split <;> infer_instance

/-- The argument list matches a list of consuming specifiers in number, order and type. -/
def args_match : List Nat → List Arg → Prop
  | [], [] => True
  | s :: ss, a :: as => fits s a ∧ args_match ss as
  | [], _ :: _ => False
  | _ :: _, [] => False

instance args_match_decidable : (ss : List Nat) → (as : List Arg) → Decidable (args_match ss as)
  | [], [] => isTrue trivial
  | s :: ss, a :: as =>
    have := args_match_decidable ss as
    by unfold args_match; infer_instance
  | [], _ :: _ => isFalse (fun h => h)
  | _ :: _, [] => isFalse (fun h => h)

/-- One unit of a template: a literal character, or a `%` with the specifier after it. -/
inductive Piece where
  | lit (c : Nat)
  | spec (s : Nat)
  deriving DecidableEq, Repr

/-- Division of a template (without its terminator) into its units, left to right: a
`%` that has a next character forms a unit with it, every other character is a
literal. -/
def pieces : List Nat → List Piece
  | [] => []
  | [c] => [Piece.lit c]
  | c :: s :: rest =>
    if c = Char.toNat '%' then Piece.spec s :: pieces rest
    else Piece.lit c :: pieces (s :: rest)

/-- The consuming specifiers of a list of units, in order. -/
def consumers : List Piece → List Nat
  | [] => []
  | Piece.lit _ :: ps => consumers ps
  | Piece.spec s :: ps => if consuming s then s :: consumers ps else consumers ps

/-- Bytes that `handle_format` writes for the specifier `s` with the cursor at `args`. -/
def rendering (fuel s : Nat) (args : List Arg) : List Nat :=
  match handle_format fuel s args with
  | .done (e, _) => e.out
  | _ => []

/-- Text of the unit at position `j` of `ps`: a literal is itself, and a specifier is
rendered by `handle_format` on the `k`-th argument, `k` being the number of consuming
specifiers before position `j`. -/
def piece_text (fuel : Nat) (args : List Arg) (ps : List Piece) (j : Nat) : List Nat :=
  match ps.get? j with
  | some (Piece.lit c) => [c]
  | some (Piece.spec s) =>
    rendering fuel s ((args.get? (consumers (ps.take j)).length).toList)
  | none => []

/-- Concatenation, in template order, of the texts of all units. -/
def expected (fuel : Nat) (ps : List Piece) (args : List Arg) : List Nat :=
  ((List.range ps.length).map (piece_text fuel args ps)).flatten

/-- Text of a list of units, the cursor moving along the arguments: the recursive
form of `expected`. -/
def rec_text (fuel : Nat) : List Piece → List Arg → List Nat
  | [], _ => []
  | Piece.lit c :: ps, args => c :: rec_text fuel ps args
  | Piece.spec s :: ps, args =>
    if consuming s then rendering fuel s args.head?.toList ++ rec_text fuel ps args.tail
    else rendering fuel s [] ++ rec_text fuel ps args

/-- The returned count is the number of bytes written. -/
def Emit.counted (e : Emit) : Prop := e.ret = (e.out.length : Nat)

/-- The call `run` (a renderer applied to its arguments, as a function of the recursion
budget) has recursion depth `k` and result `e`: it returns `e` with every budget of at
least `k` nested calls, and is cut short with every smaller budget. -/
def returns_at_depth (run : Nat → Outcome Emit) (k : Nat) (e : Emit) : Prop :=
  (∀ j, k ≤ j → run j = .done e) ∧ (∀ j, j < k → run j = .nofuel)

/-- A value is representable as an `int`. -/
def in_int (v : Int) : Prop := INT_MIN ≤ v ∧ v ≤ INT_MAX

instance (v : Int) : Decidable (in_int v) := by unfold in_int; infer_instance

/-- One arithmetic evaluation or recursive call made while `ft_putnbr` runs, with the
operand it is made on. -/
inductive NbrStep where
  /-- The negation `-n` in `n = -n`. -/
  | neg (n : Int)
  /-- The quotient `n / 10`. -/
  | div10 (n : Int)
  /-- The remainder `n % 10`. -/
  | mod10 (n : Int)
  /-- The sum `d + '0'`, where `d` is the remainder. -/
  | digit (d : Int)
  /-- The recursive call `ft_putnbr(arg)`. -/
  | call (arg : Int)
  deriving DecidableEq, Repr

/-- The step stays within `int`: a negation is not made on `INT_MIN` and its result is
an `int`, a quotient and a digit sum are `int`s, a remainder is in `0..9`, and the
argument of a recursive call is in `0..214748364`. -/
def NbrStep.safe : NbrStep → Prop
  | .neg n => n ≠ INT_MIN ∧ in_int (-n)
  | .div10 n => in_int (Int.tdiv n 10)
  | .mod10 n => 0 ≤ Int.tmod n 10 ∧ Int.tmod n 10 ≤ 9
  | .digit d => in_int (d + Char.toNat '0')
  | .call arg => 0 ≤ arg ∧ arg ≤ 214748364

instance (s : NbrStep) : Decidable s.safe := by
  cases s <;> unfold NbrStep.safe <;> infer_instance

/-- `ft_putnbr(int n)` as in `ft_putnbr`, recording in order the arithmetic evaluations
and the recursive calls made. -/
def ft_putnbr_traced : Nat → Int → Outcome (Emit × List NbrStep)
  | 0, _ => .nofuel
  | fuel + 1, n =>
    if n = -2147483648 then
      .done (ft_putstr (some (bytes "-2147483648")), [])
    else
      (if n < 0 then
          (int_neg n).bind fun m => .done (ft_putchar (Char.toNat '-'), m, [NbrStep.neg n])
        else .done (Emit.nil, n, [])).bind fun (c1, n1, t1) =>
      (if n1 ≥ 10 then
          (ft_putnbr_traced fuel (Int.tdiv n1 10)).bind fun (c, t) =>
            .done (c, NbrStep.div10 n1 :: NbrStep.call (Int.tdiv n1 10) :: t)
        else .done (Emit.nil, [])).bind fun (c2, t2) =>
      .done ((c1.seq c2).seq (ft_putchar (int_to_char (Int.tmod n1 10 + Char.toNat '0'))),
        t1 ++ t2 ++ [NbrStep.mod10 n1, NbrStep.digit (Int.tmod n1 10)])

/-! ## The copy of the formatter under `src/libftc/ft_printf` -/

namespace Libftc

/-- Modelled from the spec: `ft_putchar` of the copy under `src/libftc/ft_printf`,
which declares it in `ft_printf.h` and calls it but has no `ft_putchar.c` among the
sources.  Section 4.2: the character renderer emits exactly one byte, the given
character's code unit, and returns the count of bytes emitted. -/
def ft_putchar (c : Nat) : Emit := write [c]

/-- Loop of `ft_putstr` in this copy, `while (s[count]) count += write(1, &s[count], 1);`,
from the index `count` on: the bytes written and the final value of `count`.  The index
moves by what `write` returns.  The first argument bounds the number of tests of the
loop condition that remain. -/
def ft_putstr_loop (s : List Nat) : Nat → Int → Emit
  | 0, count => ⟨[], count⟩
  | tests + 1, count =>
    if cstr_get s count.toNat = 0 then ⟨[], count⟩
    else
      let w := write [cstr_get s count.toNat]
      let r := ft_putstr_loop s tests (count + w.ret)
      ⟨w.out ++ r.out, r.ret⟩

/-- `ft_putstr(const char *s)` of this copy; `none` is the null pointer.  The loop
tests its condition at most once per byte of the string and once on the terminator. -/
def ft_putstr (s : Option (List Nat)) : Emit :=
  match s with
  | none => write (bytes "(null)")
  | some cs => ft_putstr_loop cs (cs.length + 1) 0

/-- `ft_putnbr(int n)` of this copy. -/
def ft_putnbr : Nat → Int → Outcome Emit
  | 0, _ => .nofuel
  | fuel + 1, n =>
    if n = -2147483648 then
      .done (Libftc.ft_putstr (some (bytes "-2147483648")))
    else
      (if n < 0 then
          (int_neg n).bind fun m => .done (Libftc.ft_putchar (Char.toNat '-'), m)
        else .done (Emit.nil, n)).bind fun (c1, n1) =>
      (if n1 ≥ 10 then ft_putnbr fuel (Int.tdiv n1 10) else .done Emit.nil).bind fun c2 =>
      .done ((c1.seq c2).seq
        (Libftc.ft_putchar (int_to_char (Int.tmod n1 10 + Char.toNat '0'))))

/-- `ft_putnbr_base(unsigned int n, const char *base)` of this copy. -/
def ft_putnbr_base : Nat → Nat → List Nat → Outcome Emit
  | 0, _, _ => .nofuel
  | fuel + 1, n, base =>
    let base_len := cstr_len base
    if base_len = 0 then
      -- `n >= 0` holds, and `n / 0` is evaluated
      .undefined
    else
      (if n ≥ base_len then ft_putnbr_base fuel (n / base_len) base
        else .done Emit.nil).bind fun c =>
      .done (c.seq (Libftc.ft_putchar (cstr_get base (n % base_len))))

/-- `ft_putptr_hex(unsigned long n)` of this copy (defined after `ft_putptr` in
`ft_putptr.c`). -/
def ft_putptr_hex : Nat → Nat → Outcome Emit
  | 0, _ => .nofuel
  | fuel + 1, n =>
    (if n ≥ 16 then ft_putptr_hex fuel (n / 16) else .done Emit.nil).bind fun c =>
    .done (c.seq (Libftc.ft_putchar (cstr_get (bytes "0123456789abcdef") (n % 16))))

/-- `ft_putptr(void *ptr)` of this copy, the pointer being given by its address. -/
def ft_putptr (fuel : Nat) (address : Nat) : Outcome Emit :=
  let c0 := Libftc.ft_putstr (some (bytes "0x"))
  if address = 0 then .done (c0.seq (Libftc.ft_putchar (Char.toNat '0')))
  else (Libftc.ft_putptr_hex fuel address).bind fun c => .done (c0.seq c)

/-- `handle_format(char specifier, va_list args)` of this copy. -/
def handle_format (fuel : Nat) (specifier : Nat) (args : List Arg) :
    Outcome (Emit × List Arg) :=
  if specifier = Char.toNat 'c' then
    (va_arg_int args).bind fun (v, rest) => .done (Libftc.ft_putchar (int_to_char v), rest)
  else if specifier = Char.toNat 's' then
    (va_arg_str args).bind fun (s, rest) => .done (Libftc.ft_putstr s, rest)
  else if specifier = Char.toNat 'p' then
    (va_arg_ptr args).bind fun (a, rest) =>
      (Libftc.ft_putptr fuel a).bind fun c => .done (c, rest)
  else if specifier = Char.toNat 'd' ∨ specifier = Char.toNat 'i' then
    (va_arg_int args).bind fun (v, rest) =>
      (Libftc.ft_putnbr fuel v).bind fun c => .done (c, rest)
  else if specifier = Char.toNat 'u' then
    (va_arg_uint args).bind fun (v, rest) =>
      (Libftc.ft_putnbr_base fuel v (bytes "0123456789")).bind fun c => .done (c, rest)
  else if specifier = Char.toNat 'x' then
    (va_arg_uint args).bind fun (v, rest) =>
      (Libftc.ft_putnbr_base fuel v (bytes "0123456789abcdef")).bind fun c => .done (c, rest)
  else if specifier = Char.toNat 'X' then
    (va_arg_uint args).bind fun (v, rest) =>
      (Libftc.ft_putnbr_base fuel v (bytes "0123456789ABCDEF")).bind fun c => .done (c, rest)
  else if specifier = Char.toNat '%' then
    .done (Libftc.ft_putchar (Char.toNat '%'), args)
  else
    .done (Emit.nil, args)

/-- The `while (format[i])` loop of `ft_printf` of this copy, on the suffix
`format + i`, with the argument cursor. -/
def ft_printf_loop (fuel : Nat) : List Nat → List Arg → Outcome (Emit × List Arg)
  | [], args => .done (Emit.nil, args)
  | [c], args =>
    if c = 0 then .done (Emit.nil, args)
    else .done (write [c], args)
  | c :: s :: rest, args =>
    if c = 0 then .done (Emit.nil, args)
    else if c = Char.toNat '%' ∧ s ≠ 0 then
      (Libftc.handle_format fuel s args).bind fun (e, args1) =>
      (ft_printf_loop fuel rest args1).bind fun (r, args2) =>
      .done (e.seq r, args2)
    else
      (ft_printf_loop fuel (s :: rest) args).bind fun (r, args2) =>
      .done ((write [c]).seq r, args2)

/-- `ft_printf(const char *format, ...)` of this copy. -/
def ft_printf (fuel : Nat) (format : List Nat) (args : List Arg) : Outcome Emit :=
  (Libftc.ft_printf_loop fuel format args).bind fun (e, _) => .done e

end Libftc

/-! ## Basic facts -/

theorem bind_done {α β : Type} (a : α) (f : α → Outcome β) :
    (Outcome.done a).bind f = f a := rfl

theorem cstr_len_eq_length (s : List Nat) (h : 0 ∉ s) : cstr_len s = s.length := by
  induction s with
  | nil => rfl
  | cons c cs ih =>
    have hc : c ≠ 0 := fun e => h (by simp [e])
    have hcs : 0 ∉ cs := fun e => h (by simp [e])
    simp [cstr_len, hc, ih hcs]

theorem ft_putstr_loop_eq (s : List Nat) (h : 0 ∉ s) :
    ft_putstr_loop s = ⟨s, s.length⟩ := by
  induction s with
  | nil => rfl
  | cons c cs ih =>
    have hc : c ≠ 0 := fun e => h (by simp [e])
    have hcs : 0 ∉ cs := fun e => h (by simp [e])
    simp [ft_putstr_loop, hc, ih hcs, write, add_comm]

theorem numeral_length_pos (N v : Nat) (hN : 2 ≤ N) : 0 < (numeral N v).length := by
  unfold numeral
  split
  · simp
  · rename_i hv
    simp only [List.length_reverse]
    rw [Nat.digits_len N v (by omega) hv]
    omega

theorem numeral_of_lt (N v : Nat) (hv : v < N) : numeral N v = [v] := by
  unfold numeral
  split
  · rename_i h; simp [h]
  · rename_i h
    rw [Nat.digits_of_lt N v h hv]; rfl

theorem numeral_of_ge (N v : Nat) (hN : 2 ≤ N) (hv : N ≤ v) :
    numeral N v = numeral N (v / N) ++ [v % N] := by
  have hq : v / N ≠ 0 := by
    have : 0 < v / N := Nat.div_pos hv (by omega)
    omega
  have hv0 : v ≠ 0 := by omega
  unfold numeral
  rw [if_neg hv0, if_neg hq, Nat.digits_def' (by omega) (by omega)]
  simp

/-- The unsigned-base renderer writes the digits of `n` in radix `cstr_len base`, most
significant first, each as the symbol of the alphabet at that index, whenever the
budget covers the number of digits. -/
theorem ft_putnbr_base_eq (base : List Nat) (hN : 2 ≤ cstr_len base) :
    ∀ (fuel n : Nat), n < cstr_len base ^ (fuel + 1) →
      ft_putnbr_base (fuel + 1) n base =
        .done ⟨(numeral (cstr_len base) n).map (cstr_get base),
          ((numeral (cstr_len base) n).length : Nat)⟩ := by
  intro fuel
  induction fuel with
  | zero =>
    intro n hn
    have hn1 : n < cstr_len base := by simpa using hn
    have h0 : cstr_len base ≠ 0 := by omega
    simp [ft_putnbr_base, h0, Nat.not_le.mpr hn1, numeral_of_lt _ _ hn1, bind_done,
      Emit.seq, Emit.nil, ft_putchar, write, Nat.mod_eq_of_lt hn1]
  | succ f ih =>
    intro n hn
    have h0 : cstr_len base ≠ 0 := by omega
    by_cases hlt : n < cstr_len base
    · simp [ft_putnbr_base, h0, Nat.not_le.mpr hlt, numeral_of_lt _ _ hlt, bind_done,
        Emit.seq, Emit.nil, ft_putchar, write, Nat.mod_eq_of_lt hlt]
    · have hge : cstr_len base ≤ n := Nat.le_of_not_lt hlt
      have hq : n / cstr_len base < cstr_len base ^ (f + 1) := by
        apply Nat.div_lt_of_lt_mul
        rw [← pow_succ']; exact hn
      rw [ft_putnbr_base]
      simp only [h0, if_false, ge_iff_le, hge, if_true]
      rw [ih _ hq, numeral_of_ge _ _ hN hge]
      simp [bind_done, Emit.seq, ft_putchar, write]

/-- The pointer helper writes the digits of `n` in radix 16 with the lowercase symbols. -/
theorem ft_putptr_hex_eq :
    ∀ (fuel n : Nat), n < 16 ^ (fuel + 1) →
      ft_putptr_hex (fuel + 1) n =
        .done ⟨(numeral 16 n).map (cstr_get (bytes "0123456789abcdef")),
          ((numeral 16 n).length : Nat)⟩ := by
  intro fuel
  induction fuel with
  | zero =>
    intro n hn
    have hn1 : n < 16 := by simpa using hn
    simp [ft_putptr_hex, Nat.not_le.mpr hn1, numeral_of_lt _ _ hn1, bind_done,
      Emit.seq, Emit.nil, ft_putchar, write, Nat.mod_eq_of_lt hn1]
  | succ f ih =>
    intro n hn
    by_cases hlt : n < 16
    · simp [ft_putptr_hex, Nat.not_le.mpr hlt, numeral_of_lt _ _ hlt, bind_done,
        Emit.seq, Emit.nil, ft_putchar, write, Nat.mod_eq_of_lt hlt]
    · have hge : 16 ≤ n := Nat.le_of_not_lt hlt
      have hq : n / 16 < 16 ^ (f + 1) := by
        apply Nat.div_lt_of_lt_mul
        rw [← pow_succ']; exact hn
      rw [ft_putptr_hex]
      simp only [ge_iff_le, hge, if_true]
      rw [ih _ hq, numeral_of_ge _ _ (by omega) hge]
      simp [bind_done, Emit.seq, ft_putchar, write]

theorem int_to_char_digit (d : Nat) (hd : d < 10) :
    int_to_char (Int.tmod (d : Int) 10 + ((Char.toNat '0' : Nat) : Int)) = d + Char.toNat '0' := by
  have h48 : Char.toNat '0' = 48 := by decide
  rw [h48]
  unfold int_to_char
  rw [Int.tmod_eq_emod (by omega) (by omega)]
  omega

/-- On a non-negative value the signed renderer writes the decimal digits. -/
theorem ft_putnbr_nonneg :
    ∀ (fuel m : Nat), m < 10 ^ (fuel + 1) →
      ft_putnbr (fuel + 1) (m : Int) = .done ⟨decimal m, ((decimal m).length : Nat)⟩ := by
  intro fuel
  induction fuel with
  | zero =>
    intro m hm
    have hm1 : m < 10 := by simpa using hm
    have h1 : ¬ ((m : Int) = -2147483648) := by omega
    have h2 : ¬ ((m : Int) < 0) := by omega
    have h3 : ¬ ((m : Int) ≥ 10) := by omega
    have hd := int_to_char_digit (m % 10) (Nat.mod_lt _ (by omega))
    rw [Nat.mod_eq_of_lt hm1] at hd
    rw [ft_putnbr]
    simp only [h1, h2, h3, if_false, bind_done, hd]
    simp [decimal, numeral_of_lt _ _ hm1, Emit.seq, Emit.nil, ft_putchar, write]
  | succ f ih =>
    intro m hm
    have h1 : ¬ ((m : Int) = -2147483648) := by omega
    have h2 : ¬ ((m : Int) < 0) := by omega
    by_cases hlt : m < 10
    · have h3 : ¬ ((m : Int) ≥ 10) := by omega
      have hd := int_to_char_digit (m % 10) (Nat.mod_lt _ (by omega))
      rw [Nat.mod_eq_of_lt hlt] at hd
      rw [ft_putnbr]
      simp only [h1, h2, h3, if_false, bind_done, hd]
      simp [decimal, numeral_of_lt _ _ hlt, Emit.seq, Emit.nil, ft_putchar, write]
    · have hge : 10 ≤ m := Nat.le_of_not_lt hlt
      have h3 : (m : Int) ≥ 10 := by omega
      have hq : m / 10 < 10 ^ (f + 1) := by
        apply Nat.div_lt_of_lt_mul
        rw [← pow_succ']; exact hm
      have hd := int_to_char_digit (m % 10) (Nat.mod_lt _ (by omega))
      rw [ft_putnbr]
      simp only [h1, h2, h3, if_false, if_true, bind_done]
      have hdiv : Int.tdiv (m : Int) 10 = ((m / 10 : Nat) : Int) := by
        rw [Int.tdiv_eq_ediv (by omega) (by omega)]; omega
      rw [hdiv, ih _ hq]
      have hd2 : int_to_char (Int.tmod (m : Int) 10 + ((Char.toNat '0' : Nat) : Int))
          = m % 10 + Char.toNat '0' := by
        rw [← hd]; congr 2
        rw [Int.tmod_eq_emod (by omega) (by omega), Int.tmod_eq_emod (by omega) (by omega)]
        omega
      simp only [bind_done, hd2]
      simp [decimal, numeral_of_ge _ _ (by omega : 2 ≤ 10) hge, Emit.seq, Emit.nil,
        ft_putchar, write]

/-- The signed renderer writes the canonical decimal text of every `int`. -/
theorem ft_putnbr_eq (fuel : Nat) (n : Int) (hfuel : 10 ≤ fuel)
    (hlo : INT_MIN ≤ n) (hhi : n ≤ INT_MAX) :
    ft_putnbr fuel n = .done ⟨decimal_int n, ((decimal_int n).length : Nat)⟩ := by
  obtain ⟨f, rfl⟩ : ∃ f, fuel = f + 1 := ⟨fuel - 1, by omega⟩
  have hpow : (2147483648 : Nat) < 10 ^ (f + 1) := by
    calc (2147483648 : Nat) < 10 ^ 10 := by norm_num
      _ ≤ 10 ^ (f + 1) := Nat.pow_le_pow_right (by norm_num) (by omega)
  unfold INT_MIN at hlo
  unfold INT_MAX at hhi
  by_cases hmin : n = -2147483648
  · subst hmin
    rw [ft_putnbr]
    simp only [if_true]
    have : decimal_int (-2147483648) = bytes "-2147483648" := by
      simp [decimal_int, decimal, numeral]
      decide
    rw [this]
    rfl
  · by_cases hneg : n < 0
    · obtain ⟨m, hm⟩ : ∃ m : Nat, -n = (m : Int) := ⟨(-n).toNat, by omega⟩
      have hmlt : m < 10 ^ (f + 1) := by omega
      have hnat : n.natAbs = m := by omega
      have hrec := ft_putnbr_nonneg f m hmlt
      rw [ft_putnbr] at hrec ⊢
      have h1 : ¬ ((m : Int) = -2147483648) := by omega
      have h2 : ¬ ((m : Int) < 0) := by omega
      have hne : ¬ (n = INT_MIN) := by unfold INT_MIN; exact hmin
      simp only [h1, h2, if_false, bind_done] at hrec
      simp only [hmin, hneg, if_false, if_true, int_neg, hne, bind_done, hm]
      revert hrec
      cases hc : (if (m : Int) ≥ 10 then ft_putnbr f (Int.tdiv (m : Int) 10)
          else Outcome.done Emit.nil) with
      | done c2 =>
        simp only [bind_done]
        intro hrec
        have := Outcome.done.inj hrec
        simp only [decimal_int, hneg, if_true, hnat]
        generalize ft_putchar (int_to_char (Int.tmod (m : Int) 10 + ((Char.toNat '0' : Nat) : Int)))
          = X at this ⊢
        have hassoc : ((ft_putchar (Char.toNat '-')).seq c2).seq X
            = (ft_putchar (Char.toNat '-')).seq ((Emit.nil.seq c2).seq X) := by
          simp [Emit.seq, Emit.nil, add_assoc]
        rw [hassoc, this]
        simp [Emit.seq, ft_putchar, write]
        omega
      | undefined => intro hrec; simp [Outcome.bind] at hrec
      | nofuel => intro hrec; simp [Outcome.bind] at hrec
    · obtain ⟨m, hm⟩ : ∃ m : Nat, n = (m : Int) := ⟨n.toNat, by omega⟩
      subst hm
      have hmlt : m < 10 ^ (f + 1) := by omega
      rw [ft_putnbr_nonneg f m hmlt]
      simp [decimal_int, hneg]

/-! ## The dispatcher on a well-typed argument -/

theorem handle_format_c (fuel : Nat) (v : Int) (rest : List Arg) :
    handle_format fuel (Char.toNat 'c') (Arg.int v :: rest)
      = .done (⟨[int_to_char v], 1⟩, rest) := by
  simp [handle_format, va_arg_int, bind_done, ft_putchar, write]

theorem handle_format_s (fuel : Nat) (s : Option (List Nat)) (rest : List Arg) :
    handle_format fuel (Char.toNat 's') (Arg.str s :: rest)
      = .done (ft_putstr s, rest) := by
  simp [handle_format, va_arg_str, bind_done]

theorem ft_putptr_eq (fuel a : Nat) (hfuel : 16 ≤ fuel) (ha : a < ULONG_RANGE) :
    ft_putptr fuel a = .done ⟨bytes "0x" ++
      (numeral 16 a).map (cstr_get (bytes "0123456789abcdef")),
      ((2 + (numeral 16 a).length : Nat) : Int)⟩ := by
  obtain ⟨f, rfl⟩ : ∃ f, fuel = f + 1 := ⟨fuel - 1, by omega⟩
  have hpow : a < 16 ^ (f + 1) := by
    calc a < 16 ^ 16 := by unfold ULONG_RANGE at ha; norm_num; exact ha
      _ ≤ 16 ^ (f + 1) := Nat.pow_le_pow_right (by norm_num) (by omega)
  have h0x : ft_putstr (some (bytes "0x")) = ⟨bytes "0x", 2⟩ := by decide
  unfold ft_putptr
  by_cases h0 : a = 0
  · subst h0
    simp only [if_true, h0x]
    decide
  · simp only [h0, if_false, h0x, ft_putptr_hex_eq f a hpow, bind_done, Emit.seq]
    simp

theorem handle_format_p (fuel a : Nat) (rest : List Arg) (hfuel : 16 ≤ fuel)
    (ha : a < ULONG_RANGE) :
    handle_format fuel (Char.toNat 'p') (Arg.ptr a :: rest)
      = .done (⟨bytes "0x" ++ (numeral 16 a).map (cstr_get (bytes "0123456789abcdef")),
          ((2 + (numeral 16 a).length : Nat) : Int)⟩, rest) := by
  simp [handle_format, va_arg_ptr, bind_done, ft_putptr_eq fuel a hfuel ha]

theorem handle_format_d (fuel : Nat) (v : Int) (rest : List Arg) (hfuel : 10 ≤ fuel)
    (hlo : INT_MIN ≤ v) (hhi : v ≤ INT_MAX) :
    handle_format fuel (Char.toNat 'd') (Arg.int v :: rest)
      = .done (⟨decimal_int v, ((decimal_int v).length : Nat)⟩, rest) := by
  simp [handle_format, va_arg_int, bind_done, ft_putnbr_eq fuel v hfuel hlo hhi]

theorem handle_format_i (fuel : Nat) (v : Int) (rest : List Arg) (hfuel : 10 ≤ fuel)
    (hlo : INT_MIN ≤ v) (hhi : v ≤ INT_MAX) :
    handle_format fuel (Char.toNat 'i') (Arg.int v :: rest)
      = .done (⟨decimal_int v, ((decimal_int v).length : Nat)⟩, rest) := by
  simp [handle_format, va_arg_int, bind_done, ft_putnbr_eq fuel v hfuel hlo hhi]

/-- Rendering of an `unsigned int` with a 10-symbol alphabet. -/
theorem ft_putnbr_base_10 (fuel v : Nat) (base : List Nat) (hb : cstr_len base = 10)
    (hfuel : 10 ≤ fuel) (hv : v < UINT_RANGE) :
    ft_putnbr_base fuel v base
      = .done ⟨(numeral 10 v).map (cstr_get base), ((numeral 10 v).length : Nat)⟩ := by
  obtain ⟨f, rfl⟩ : ∃ f, fuel = f + 1 := ⟨fuel - 1, by omega⟩
  have hpow : v < 10 ^ (f + 1) := by
    calc v < 10 ^ 10 := by unfold UINT_RANGE at hv; omega
      _ ≤ 10 ^ (f + 1) := Nat.pow_le_pow_right (by norm_num) (by omega)
  have := ft_putnbr_base_eq base (by omega) f v (by rw [hb]; exact hpow)
  rw [hb] at this
  exact this

/-- Rendering of an `unsigned int` with a 16-symbol alphabet. -/
theorem ft_putnbr_base_16 (fuel v : Nat) (base : List Nat) (hb : cstr_len base = 16)
    (hfuel : 8 ≤ fuel) (hv : v < UINT_RANGE) :
    ft_putnbr_base fuel v base
      = .done ⟨(numeral 16 v).map (cstr_get base), ((numeral 16 v).length : Nat)⟩ := by
  obtain ⟨f, rfl⟩ : ∃ f, fuel = f + 1 := ⟨fuel - 1, by omega⟩
  have hpow : v < 16 ^ (f + 1) := by
    calc v < 16 ^ 8 := by unfold UINT_RANGE at hv; omega
      _ ≤ 16 ^ (f + 1) := Nat.pow_le_pow_right (by norm_num) (by omega)
  have := ft_putnbr_base_eq base (by omega) f v (by rw [hb]; exact hpow)
  rw [hb] at this
  exact this

theorem handle_format_u (fuel v : Nat) (rest : List Arg) (hfuel : 10 ≤ fuel)
    (hv : v < UINT_RANGE) :
    handle_format fuel (Char.toNat 'u') (Arg.uint v :: rest)
      = .done (⟨(numeral 10 v).map (cstr_get (bytes "0123456789")),
          ((numeral 10 v).length : Nat)⟩, rest) := by
  simp [handle_format, va_arg_uint, bind_done,
    ft_putnbr_base_10 fuel v (bytes "0123456789") (by decide) hfuel hv]

theorem handle_format_x (fuel v : Nat) (rest : List Arg) (hfuel : 8 ≤ fuel)
    (hv : v < UINT_RANGE) :
    handle_format fuel (Char.toNat 'x') (Arg.uint v :: rest)
      = .done (⟨(numeral 16 v).map (cstr_get (bytes "0123456789abcdef")),
          ((numeral 16 v).length : Nat)⟩, rest) := by
  simp [handle_format, va_arg_uint, bind_done,
    ft_putnbr_base_16 fuel v (bytes "0123456789abcdef") (by decide) hfuel hv]

theorem handle_format_X (fuel v : Nat) (rest : List Arg) (hfuel : 8 ≤ fuel)
    (hv : v < UINT_RANGE) :
    handle_format fuel (Char.toNat 'X') (Arg.uint v :: rest)
      = .done (⟨(numeral 16 v).map (cstr_get (bytes "0123456789ABCDEF")),
          ((numeral 16 v).length : Nat)⟩, rest) := by
  simp [handle_format, va_arg_uint, bind_done,
    ft_putnbr_base_16 fuel v (bytes "0123456789ABCDEF") (by decide) hfuel hv]

theorem handle_format_other (fuel s : Nat) (args : List Arg) (hs : ¬ consuming s) :
    handle_format fuel s args
      = .done (if s = Char.toNat '%' then ⟨[Char.toNat '%'], 1⟩ else Emit.nil, args) := by
  have h : s ≠ 99 ∧ s ≠ 115 ∧ s ≠ 112 ∧ s ≠ 100 ∧ s ≠ 105 ∧ s ≠ 117 ∧ s ≠ 120 ∧ s ≠ 88 := by
    simpa [consuming, bytes] using hs
  obtain ⟨h1, h2, h3, h4, h5, h6, h7, h8⟩ := h
  simp [handle_format, h1, h2, h3, h4, h5, h6, h7, h8, ft_putchar, write]
  split <;> rfl

/-- On an argument of the type its specifier reads, the dispatcher returns, consumes
exactly that argument, and returns the number of bytes written. -/
theorem handle_format_fits (fuel s : Nat) (a : Arg) (hfuel : 16 ≤ fuel) (hfit : fits s a) :
    ∃ e : Emit, e.ret = (e.out.length : Nat) ∧
      ∀ rest, handle_format fuel s (a :: rest) = .done (e, rest) := by
  cases a with
  | int v =>
    obtain ⟨hs, hlo, hhi⟩ := hfit
    rcases hs with rfl | rfl | rfl
    · exact ⟨_, by simp, fun rest => handle_format_c fuel v rest⟩
    · exact ⟨_, rfl, fun rest => handle_format_d fuel v rest (by omega) hlo hhi⟩
    · exact ⟨_, rfl, fun rest => handle_format_i fuel v rest (by omega) hlo hhi⟩
  | uint v =>
    obtain ⟨hs, hv⟩ := hfit
    rcases hs with rfl | rfl | rfl
    · exact ⟨_, by simp, fun rest => handle_format_u fuel v rest (by omega) hv⟩
    · exact ⟨_, by simp, fun rest => handle_format_x fuel v rest (by omega) hv⟩
    · exact ⟨_, by simp, fun rest => handle_format_X fuel v rest (by omega) hv⟩
  | str s0 =>
    cases s0 with
    | none =>
      have hs : s = Char.toNat 's' := hfit
      subst hs
      exact ⟨_, by decide, fun rest => handle_format_s fuel none rest⟩
    | some cs =>
      obtain ⟨hs, hcs⟩ := hfit
      subst hs
      refine ⟨_, ?_, fun rest => handle_format_s fuel (some cs) rest⟩
      simp [ft_putstr, ft_putstr_loop_eq cs hcs]
  | ptr p =>
    obtain ⟨hs, hp⟩ := hfit
    subst hs
    refine ⟨_, ?_, fun rest => handle_format_p fuel p rest hfuel hp⟩
    have h2 : (bytes "0x").length = 2 := by decide
    simp [h2]

theorem rendering_of_done (fuel s : Nat) (args rest : List Arg) (e : Emit)
    (h : handle_format fuel s args = .done (e, rest)) : rendering fuel s args = e.out := by
  simp [rendering, h]

theorem list_two_step {P : List Nat → Prop} (h0 : P []) (h1 : ∀ c, P [c])
    (h2 : ∀ c s rest, P rest → P (s :: rest) → P (c :: s :: rest)) : ∀ t, P t := by
  have key : ∀ t, P t ∧ ∀ c, P (c :: t) := by
    intro t
    induction t with
    | nil => exact ⟨h0, h1⟩
    | cons s rest ih => exact ⟨ih.2 s, fun c => h2 c s rest ih.1 (ih.2 s)⟩
  exact fun t => (key t).1

/-- The scanner, on a template without NUL and arguments matching its consuming
specifiers, returns, writes the text of the units from left to right, counts the bytes
written, and leaves no argument. -/
theorem ft_printf_loop_eq (fuel : Nat) (hfuel : 16 ≤ fuel) :
    ∀ t : List Nat, 0 ∉ t → ∀ args, args_match (consumers (pieces t)) args →
      ft_printf_loop fuel t args =
        .done (⟨rec_text fuel (pieces t) args,
          ((rec_text fuel (pieces t) args).length : Nat)⟩, []) := by
  intro t
  induction t using list_two_step with
  | h0 =>
    intro _ args hm
    cases args with
    | nil => rfl
    | cons a as => exact absurd hm (by simp [pieces, consumers, args_match])
  | h1 c =>
    intro h0 args hm
    have hc : c ≠ 0 := fun e => h0 (by simp [e])
    cases args with
    | nil => simp [ft_printf_loop, hc, pieces, rec_text, write]
    | cons a as => exact absurd hm (by simp [pieces, consumers, args_match])
  | h2 c s rest ih1 ih2 =>
    intro h0 args hm
    have hc : c ≠ 0 := fun e => h0 (by simp [e])
    have hs : s ≠ 0 := fun e => h0 (by simp [e])
    have hrest : 0 ∉ rest := fun e => h0 (by simp [e])
    have hsrest : 0 ∉ s :: rest := fun e => h0 (List.mem_cons_of_mem _ e)
    by_cases hp : c = Char.toNat '%'
    · rw [ft_printf_loop, if_neg hc, if_pos ⟨hp, hs⟩]
      rw [pieces, if_pos hp] at hm ⊢
      by_cases hcons : consuming s
      · rw [consumers, if_pos hcons] at hm
        cases args with
        | nil => exact absurd hm (by simp [args_match])
        | cons a as =>
          obtain ⟨hfit, hm2⟩ := hm
          obtain ⟨e, he, hf⟩ := handle_format_fits fuel s a hfuel hfit
          rw [hf as, bind_done]
          dsimp only []
          rw [ih1 hrest as hm2, bind_done]
          dsimp only []
          simp only [rec_text, if_pos hcons, List.head?_cons, Option.toList, List.tail_cons,
            rendering_of_done fuel s [a] [] e (hf [])]
          simp [Emit.seq, he]
      · rw [consumers, if_neg hcons] at hm
        rw [handle_format_other fuel s args hcons, bind_done]
        dsimp only []
        rw [ih1 hrest args hm, bind_done]
        dsimp only []
        simp only [rec_text, if_neg hcons,
          rendering_of_done fuel s [] [] _ (handle_format_other fuel s [] hcons)]
        split <;> simp [Emit.seq, Emit.nil, add_comm]
    · rw [ft_printf_loop, if_neg hc, if_neg (fun h => hp h.1)]
      rw [pieces, if_neg hp] at hm ⊢
      rw [consumers] at hm
      rw [ih2 hsrest args hm, bind_done]
      dsimp only []
      simp [rec_text, Emit.seq, write, add_comm]

theorem get?_succ_eq_tail (args : List Arg) (k : Nat) :
    args.get? (k + 1) = args.tail.get? k := by
  cases args <;> simp

theorem rendering_other (fuel s : Nat) (args : List Arg) (hs : ¬ consuming s) :
    rendering fuel s args = rendering fuel s [] := by
  rw [rendering_of_done fuel s args args _ (handle_format_other fuel s args hs),
    rendering_of_done fuel s [] [] _ (handle_format_other fuel s [] hs)]

theorem piece_text_lit_succ (fuel : Nat) (args : List Arg) (c : Nat) (ps : List Piece)
    (j : Nat) :
    piece_text fuel args (Piece.lit c :: ps) (j + 1) = piece_text fuel args ps j := by
  simp [piece_text, consumers]

theorem piece_text_spec_succ (fuel : Nat) (args : List Arg) (s : Nat) (ps : List Piece)
    (j : Nat) :
    piece_text fuel args (Piece.spec s :: ps) (j + 1)
      = piece_text fuel (if consuming s then args.tail else args) ps j := by
  by_cases hs : consuming s
  · simp [piece_text, consumers, hs, get?_succ_eq_tail]
  · simp [piece_text, consumers, hs]

/-- The recursive and the positional description of the expected text agree. -/
theorem rec_text_eq_expected (fuel : Nat) :
    ∀ (ps : List Piece) (args : List Arg), rec_text fuel ps args = expected fuel ps args := by
  intro ps
  induction ps with
  | nil => intro args; simp [rec_text, expected]
  | cons p ps ih =>
    intro args
    cases p with
    | lit c =>
      simp only [rec_text, expected, List.length_cons, List.range_succ_eq_map, List.map_cons,
        List.map_map, List.flatten_cons]
      have h0 : piece_text fuel args (Piece.lit c :: ps) 0 = [c] := by simp [piece_text]
      have hf : (piece_text fuel args (Piece.lit c :: ps)) ∘ Nat.succ
          = piece_text fuel args ps := by
        funext j; exact piece_text_lit_succ fuel args c ps j
      rw [h0, hf, ih args]
      rfl
    | spec s =>
      simp only [rec_text, expected, List.length_cons, List.range_succ_eq_map, List.map_cons,
        List.map_map, List.flatten_cons]
      have h0 : piece_text fuel args (Piece.spec s :: ps) 0
          = rendering fuel s args.head?.toList := by
        cases args <;> simp [piece_text, consumers]
      have hf : (piece_text fuel args (Piece.spec s :: ps)) ∘ Nat.succ
          = piece_text fuel (if consuming s then args.tail else args) ps := by
        funext j; exact piece_text_spec_succ fuel args s ps j
      rw [h0, hf]
      by_cases hs : consuming s
      · simp only [hs, if_true, ih args.tail]; rfl
      · simp only [hs, if_false, ih args, rendering_other fuel s _ hs]; rfl

/-- A template without `%` is copied by the scanner, which reads no argument. -/
theorem ft_printf_loop_literal (fuel : Nat) :
    ∀ t : List Nat, 0 ∉ t → Char.toNat '%' ∉ t → ∀ args,
      ft_printf_loop fuel t args = .done (⟨t, (t.length : Nat)⟩, args) := by
  intro t
  induction t using list_two_step with
  | h0 => intro _ _ args; rfl
  | h1 c =>
    intro h0 _ args
    have hc : c ≠ 0 := fun e => h0 (by simp [e])
    simp [ft_printf_loop, hc, write]
  | h2 c s rest _ ih2 =>
    intro h0 hp args
    have hc : c ≠ 0 := fun e => h0 (by simp [e])
    have hcp : c ≠ Char.toNat '%' := fun e => hp (by simp [e])
    have hsrest : 0 ∉ s :: rest := fun e => h0 (List.mem_cons_of_mem _ e)
    have hprest : Char.toNat '%' ∉ s :: rest := fun e => hp (List.mem_cons_of_mem _ e)
    rw [ft_printf_loop, if_neg hc, if_neg (fun h => hcp h.1), ih2 hsrest hprest args, bind_done]
    dsimp only []
    simp [Emit.seq, write, add_comm]

/-! ## The count invariant, for every call that returns -/

theorem bind_eq_done {α β : Type} {x : Outcome α} {f : α → Outcome β} {b : β}
    (h : x.bind f = .done b) : ∃ a, x = .done a ∧ f a = .done b := by
  cases x with
  | done a => exact ⟨a, rfl, h⟩
  | undefined => simp [Outcome.bind] at h
  | nofuel => simp [Outcome.bind] at h

theorem counted_nil : Emit.nil.counted := by simp [Emit.counted, Emit.nil]

theorem counted_write (buf : List Nat) : (write buf).counted := by
  simp [Emit.counted, write]

theorem counted_putchar (c : Nat) : (ft_putchar c).counted := counted_write [c]

theorem counted_seq {a b : Emit} (ha : a.counted) (hb : b.counted) : (a.seq b).counted := by
  unfold Emit.counted at *
  simp [Emit.seq, ha, hb]

theorem counted_putstr_loop : ∀ s : List Nat, (ft_putstr_loop s).counted := by
  intro s
  induction s with
  | nil => exact counted_nil
  | cons c cs ih =>
    unfold Emit.counted at *
    by_cases hc : c = 0
    · simp [ft_putstr_loop, hc, Emit.nil]
    · simp [ft_putstr_loop, hc, write, ih, add_comm]

theorem counted_putstr (s : Option (List Nat)) : (ft_putstr s).counted := by
  cases s with
  | none => exact counted_write _
  | some cs => exact counted_putstr_loop cs

theorem counted_putnbr : ∀ (fuel : Nat) (n : Int) (e : Emit),
    ft_putnbr fuel n = .done e → e.counted := by
  intro fuel
  induction fuel with
  | zero => intro n e h; simp [ft_putnbr] at h
  | succ f ih =>
    intro n e h
    rw [ft_putnbr] at h
    split at h
    · rw [← Outcome.done.inj h]; exact counted_putstr _
    · obtain ⟨⟨c1, n1⟩, h1, h⟩ := bind_eq_done h
      obtain ⟨c2, h2, h⟩ := bind_eq_done h
      have hc1 : c1.counted := by
        split at h1
        · obtain ⟨m, _, h1⟩ := bind_eq_done h1
          have := Outcome.done.inj h1
          rw [← (Prod.mk.inj this).1]; exact counted_putchar _
        · have := Outcome.done.inj h1
          rw [← (Prod.mk.inj this).1]; exact counted_nil
      have hc2 : c2.counted := by
        split at h2
        · exact ih _ _ h2
        · rw [← Outcome.done.inj h2]; exact counted_nil
      rw [← Outcome.done.inj h]
      exact counted_seq (counted_seq hc1 hc2) (counted_putchar _)

theorem counted_putnbr_base : ∀ (fuel n : Nat) (base : List Nat) (e : Emit),
    ft_putnbr_base fuel n base = .done e → e.counted := by
  intro fuel
  induction fuel with
  | zero => intro n base e h; simp [ft_putnbr_base] at h
  | succ f ih =>
    intro n base e h
    rw [ft_putnbr_base] at h
    split at h
    · simp at h
    · obtain ⟨c, hc, h⟩ := bind_eq_done h
      have hcc : c.counted := by
        split at hc
        · exact ih _ _ _ hc
        · rw [← Outcome.done.inj hc]; exact counted_nil
      rw [← Outcome.done.inj h]
      exact counted_seq hcc (counted_putchar _)

theorem counted_putptr_hex : ∀ (fuel n : Nat) (e : Emit),
    ft_putptr_hex fuel n = .done e → e.counted := by
  intro fuel
  induction fuel with
  | zero => intro n e h; simp [ft_putptr_hex] at h
  | succ f ih =>
    intro n e h
    rw [ft_putptr_hex] at h
    obtain ⟨c, hc, h⟩ := bind_eq_done h
    have hcc : c.counted := by
      split at hc
      · exact ih _ _ hc
      · rw [← Outcome.done.inj hc]; exact counted_nil
    rw [← Outcome.done.inj h]
    exact counted_seq hcc (counted_putchar _)

theorem counted_putptr (fuel a : Nat) (e : Emit) (h : ft_putptr fuel a = .done e) :
    e.counted := by
  unfold ft_putptr at h
  dsimp only [] at h
  split at h
  · rw [← Outcome.done.inj h]; exact counted_seq (counted_putstr _) (counted_putchar _)
  · obtain ⟨c, hc, h⟩ := bind_eq_done h
    rw [← Outcome.done.inj h]
    exact counted_seq (counted_putstr _) (counted_putptr_hex _ _ _ hc)

theorem counted_handle_format (fuel s : Nat) (args rest : List Arg) (e : Emit)
    (h : handle_format fuel s args = .done (e, rest)) : e.counted := by
  unfold handle_format at h
  split at h
  · obtain ⟨⟨v, r⟩, _, h⟩ := bind_eq_done h
    rw [← (Prod.mk.inj (Outcome.done.inj h)).1]; exact counted_putchar _
  split at h
  · obtain ⟨⟨v, r⟩, _, h⟩ := bind_eq_done h
    rw [← (Prod.mk.inj (Outcome.done.inj h)).1]; exact counted_putstr _
  split at h
  · obtain ⟨⟨v, r⟩, _, h⟩ := bind_eq_done h
    obtain ⟨c, hc, h⟩ := bind_eq_done h
    rw [← (Prod.mk.inj (Outcome.done.inj h)).1]; exact counted_putptr _ _ _ hc
  split at h
  · obtain ⟨⟨v, r⟩, _, h⟩ := bind_eq_done h
    obtain ⟨c, hc, h⟩ := bind_eq_done h
    rw [← (Prod.mk.inj (Outcome.done.inj h)).1]; exact counted_putnbr _ _ _ hc
  split at h
  · obtain ⟨⟨v, r⟩, _, h⟩ := bind_eq_done h
    obtain ⟨c, hc, h⟩ := bind_eq_done h
    rw [← (Prod.mk.inj (Outcome.done.inj h)).1]; exact counted_putnbr_base _ _ _ _ hc
  split at h
  · obtain ⟨⟨v, r⟩, _, h⟩ := bind_eq_done h
    obtain ⟨c, hc, h⟩ := bind_eq_done h
    rw [← (Prod.mk.inj (Outcome.done.inj h)).1]; exact counted_putnbr_base _ _ _ _ hc
  split at h
  · obtain ⟨⟨v, r⟩, _, h⟩ := bind_eq_done h
    obtain ⟨c, hc, h⟩ := bind_eq_done h
    rw [← (Prod.mk.inj (Outcome.done.inj h)).1]; exact counted_putnbr_base _ _ _ _ hc
  split at h
  · rw [← (Prod.mk.inj (Outcome.done.inj h)).1]; exact counted_putchar _
  · rw [← (Prod.mk.inj (Outcome.done.inj h)).1]; exact counted_nil

theorem counted_printf_loop (fuel : Nat) : ∀ (t : List Nat) (args rest : List Arg) (e : Emit),
    ft_printf_loop fuel t args = .done (e, rest) → e.counted := by
  intro t
  induction t using list_two_step with
  | h0 =>
    intro args rest e h
    rw [ft_printf_loop] at h
    rw [← (Prod.mk.inj (Outcome.done.inj h)).1]; exact counted_nil
  | h1 c =>
    intro args rest e h
    rw [ft_printf_loop] at h
    split at h
    · rw [← (Prod.mk.inj (Outcome.done.inj h)).1]; exact counted_nil
    · rw [← (Prod.mk.inj (Outcome.done.inj h)).1]; exact counted_write _
  | h2 c s rest' ih1 ih2 =>
    intro args rest e h
    rw [ft_printf_loop] at h
    split at h
    · rw [← (Prod.mk.inj (Outcome.done.inj h)).1]; exact counted_nil
    split at h
    · obtain ⟨⟨e1, a1⟩, h1, h⟩ := bind_eq_done h
      obtain ⟨⟨r, a2⟩, h2, h⟩ := bind_eq_done h
      rw [← (Prod.mk.inj (Outcome.done.inj h)).1]
      exact counted_seq (counted_handle_format _ _ _ _ _ h1) (ih1 _ _ _ h2)
    · obtain ⟨⟨r, a2⟩, h2, h⟩ := bind_eq_done h
      rw [← (Prod.mk.inj (Outcome.done.inj h)).1]
      exact counted_seq (counted_write _) (ih2 _ _ _ h2)

theorem counted_printf (fuel : Nat) (t : List Nat) (args : List Arg) (e : Emit)
    (h : ft_printf fuel t args = .done e) : e.counted := by
  unfold ft_printf at h
  obtain ⟨⟨e1, a1⟩, h1, h⟩ := bind_eq_done h
  rw [← Outcome.done.inj h]
  exact counted_printf_loop fuel t args a1 e1 h1

/-! ## The scanner: output in template order -/

/-- C1: for a template without NUL and an argument list matching its consuming
specifiers in number, order and type, `ft_printf` returns and writes exactly the
concatenation, in template order, of each literal character and of the rendering by
`handle_format` of each `%`+specifier, the `k`-th consuming specifier rendering the
`k`-th argument; the count is the number of bytes.  In particular
`"Hola %s, tienes %d"` with `(nombre, edad)` writes `"Hola "`, `nombre`, `", tienes "`
and the decimal text of `edad`. -/
theorem ft_printf_template_order (fuel : Nat) (hfuel : 16 ≤ fuel) :
    (∀ (t : List Nat) (args : List Arg), 0 ∉ t → args_match (consumers (pieces t)) args →
      ft_printf fuel t args =
        .done ⟨expected fuel (pieces t) args,
          ((expected fuel (pieces t) args).length : Nat)⟩) ∧
    (∀ (nombre : List Nat) (edad : Int), 0 ∉ nombre → INT_MIN ≤ edad → edad ≤ INT_MAX →
      ft_printf fuel (bytes "Hola %s, tienes %d") [Arg.str (some nombre), Arg.int edad] =
        .done ⟨bytes "Hola " ++ nombre ++ bytes ", tienes " ++ decimal_int edad,
          ((5 + nombre.length + 9 + (decimal_int edad).length : Nat) : Int)⟩) := by
  have main : ∀ (t : List Nat) (args : List Arg), 0 ∉ t →
      args_match (consumers (pieces t)) args →
      ft_printf fuel t args =
        .done ⟨expected fuel (pieces t) args,
          ((expected fuel (pieces t) args).length : Nat)⟩ := by
    intro t args ht hargs
    rw [ft_printf, ft_printf_loop_eq fuel hfuel t ht args hargs, bind_done,
      rec_text_eq_expected]
  refine ⟨main, ?_⟩
  intro nombre edad hn hlo hhi
  have hps : pieces (bytes "Hola %s, tienes %d")
      = [Piece.lit 72, Piece.lit 111, Piece.lit 108, Piece.lit 97, Piece.lit 32,
         Piece.spec 115, Piece.lit 44, Piece.lit 32, Piece.lit 116, Piece.lit 105,
         Piece.lit 101, Piece.lit 110, Piece.lit 101, Piece.lit 115, Piece.lit 32,
         Piece.spec 100] := by decide
  have hmatch : args_match (consumers (pieces (bytes "Hola %s, tienes %d")))
      [Arg.str (some nombre), Arg.int edad] := by
    have hc : consumers (pieces (bytes "Hola %s, tienes %d")) = [115, 100] := by decide
    rw [hc]
    exact ⟨⟨rfl, hn⟩, ⟨Or.inr (Or.inl rfl), hlo, hhi⟩, trivial⟩
  rw [main _ _ (by decide) hmatch, ← rec_text_eq_expected, hps]
  have hs : rendering fuel 115 [Arg.str (some nombre)] = nombre := by
    rw [rendering_of_done fuel 115 _ [] _ (handle_format_s fuel (some nombre) [])]
    simp [ft_putstr, ft_putstr_loop_eq nombre hn]
  have hd : rendering fuel 100 [Arg.int edad] = decimal_int edad := by
    rw [rendering_of_done fuel 100 _ [] _ (handle_format_d fuel edad [] (by omega) hlo hhi)]
  have c115 : consuming 115 := by decide
  have c100 : consuming 100 := by decide
  simp only [rec_text, c115, c100, if_true, List.head?_cons, Option.toList, List.tail_cons,
    hs, hd]
  have e1 : bytes "Hola " = [72, 111, 108, 97, 32] := by decide
  have e2 : bytes ", tienes " = [44, 32, 116, 105, 101, 110, 101, 115, 32] := by decide
  rw [e1, e2]
  simp
  omega

/-- Witness for C1: a template with two consuming specifiers and matching arguments;
its expected text is `aA%b7`. -/
theorem ft_printf_template_order_witness :
    (0 ∉ bytes "a%c%%b%u" ∧
      args_match (consumers (pieces (bytes "a%c%%b%u"))) [Arg.int 65, Arg.uint 7] ∧
      expected 16 (pieces (bytes "a%c%%b%u")) [Arg.int 65, Arg.uint 7] = bytes "aA%b7") ∧
    ft_printf 16 (bytes "a%c%%b%u") [Arg.int 65, Arg.uint 7] =
      .done ⟨expected 16 (pieces (bytes "a%c%%b%u")) [Arg.int 65, Arg.uint 7],
        ((expected 16 (pieces (bytes "a%c%%b%u")) [Arg.int 65, Arg.uint 7]).length : Nat)⟩ :=
  ⟨by decide,
    (ft_printf_template_order 16 (by decide)).1 (bytes "a%c%%b%u") [Arg.int 65, Arg.uint 7]
      (by decide) (by decide)⟩

/-- C2: a template without `%` (and without NUL) is written verbatim, in order, and
the returned count is its length; no argument is read and no recursion budget is
needed. -/
theorem ft_printf_no_percent (fuel : Nat) (t : List Nat) (args : List Arg)
    (ht : 0 ∉ t) (hp : Char.toNat '%' ∉ t) :
    ft_printf fuel t args = .done ⟨t, (t.length : Nat)⟩ ∧
      ft_printf_loop fuel t args = .done (⟨t, (t.length : Nat)⟩, args) := by
  have h := ft_printf_loop_literal fuel t ht hp args
  exact ⟨by rw [ft_printf, h, bind_done], h⟩

/-- Witness for C2: the template `"Hola"`. -/
theorem ft_printf_no_percent_witness :
    ft_printf 0 (bytes "Hola") [] = .done ⟨bytes "Hola", ((bytes "Hola").length : Nat)⟩ ∧
      ft_printf_loop 0 (bytes "Hola") [] =
        .done (⟨bytes "Hola", ((bytes "Hola").length : Nat)⟩, []) :=
  ft_printf_no_percent 0 (bytes "Hola") [] (by decide) (by decide)

/-! ## The returned count -/

theorem ft_putnbr_base_returns (fuel v : Nat) (base : List Nat) (hfuel : 32 ≤ fuel)
    (hv : v < UINT_RANGE) (hN : 2 ≤ cstr_len base) :
    ft_putnbr_base fuel v base =
      .done ⟨(numeral (cstr_len base) v).map (cstr_get base),
        ((numeral (cstr_len base) v).length : Nat)⟩ := by
  obtain ⟨f, rfl⟩ : ∃ f, fuel = f + 1 := ⟨fuel - 1, by omega⟩
  apply ft_putnbr_base_eq base hN f v
  calc v < 2 ^ 32 := by unfold UINT_RANGE at hv; omega
    _ ≤ cstr_len base ^ 32 := Nat.pow_le_pow_left hN 32
    _ ≤ cstr_len base ^ (f + 1) := Nat.pow_le_pow_right (by omega) (by omega)

/-- C3: the integer returned equals the number of bytes written to the sink.  For
`ft_printf` on a template with matching arguments, for `ft_putchar`, `ft_putstr`,
`ft_putnbr` on an `int`, `ft_putnbr_base` on an `unsigned int` and an alphabet of at
least two symbols, `ft_putptr` on a 64-bit address and `handle_format`, the call
returns and its count is the number of bytes; and whenever any of these calls returns
at all, on any input, its count is the number of bytes. -/
theorem returned_count_is_bytes_written :
    (∀ (fuel : Nat) (t : List Nat) (args : List Arg), 16 ≤ fuel → 0 ∉ t →
      args_match (consumers (pieces t)) args →
      ∃ e, ft_printf fuel t args = .done e ∧ e.ret = (e.out.length : Nat)) ∧
    (∀ c : Nat, (ft_putchar c).ret = ((ft_putchar c).out.length : Nat)) ∧
    (∀ s : Option (List Nat), (ft_putstr s).ret = ((ft_putstr s).out.length : Nat)) ∧
    (∀ (fuel : Nat) (n : Int), 10 ≤ fuel → INT_MIN ≤ n → n ≤ INT_MAX →
      ∃ e, ft_putnbr fuel n = .done e ∧ e.ret = (e.out.length : Nat)) ∧
    (∀ (fuel v : Nat) (base : List Nat), 32 ≤ fuel → v < UINT_RANGE → 2 ≤ cstr_len base →
      ∃ e, ft_putnbr_base fuel v base = .done e ∧ e.ret = (e.out.length : Nat)) ∧
    (∀ (fuel a : Nat), 16 ≤ fuel → a < ULONG_RANGE →
      ∃ e, ft_putptr fuel a = .done e ∧ e.ret = (e.out.length : Nat)) ∧
    (∀ (fuel s : Nat) (a : Arg) (rest : List Arg), 16 ≤ fuel → fits s a →
      ∃ e, handle_format fuel s (a :: rest) = .done (e, rest) ∧
        e.ret = (e.out.length : Nat)) ∧
    (∀ (fuel s : Nat) (args : List Arg), ¬ consuming s →
      ∃ e, handle_format fuel s args = .done (e, args) ∧ e.ret = (e.out.length : Nat)) ∧
    (∀ (fuel : Nat) (t : List Nat) (args : List Arg) (e : Emit),
      ft_printf fuel t args = .done e → e.ret = (e.out.length : Nat)) ∧
    (∀ (fuel : Nat) (n : Int) (e : Emit),
      ft_putnbr fuel n = .done e → e.ret = (e.out.length : Nat)) ∧
    (∀ (fuel v : Nat) (base : List Nat) (e : Emit),
      ft_putnbr_base fuel v base = .done e → e.ret = (e.out.length : Nat)) ∧
    (∀ (fuel a : Nat) (e : Emit),
      ft_putptr fuel a = .done e → e.ret = (e.out.length : Nat)) ∧
    (∀ (fuel s : Nat) (args rest : List Arg) (e : Emit),
      handle_format fuel s args = .done (e, rest) → e.ret = (e.out.length : Nat)) := by
  refine ⟨?_, counted_putchar, counted_putstr, ?_, ?_, ?_, ?_, ?_, counted_printf,
    counted_putnbr, counted_putnbr_base, counted_putptr, counted_handle_format⟩
  · intro fuel t args hfuel ht hargs
    have h : ft_printf fuel t args = .done ⟨rec_text fuel (pieces t) args,
        ((rec_text fuel (pieces t) args).length : Nat)⟩ := by
      rw [ft_printf, ft_printf_loop_eq fuel hfuel t ht args hargs, bind_done]
    exact ⟨_, h, rfl⟩
  · intro fuel n hfuel hlo hhi
    exact ⟨_, ft_putnbr_eq fuel n hfuel hlo hhi, rfl⟩
  · intro fuel v base hfuel hv hN
    exact ⟨_, ft_putnbr_base_returns fuel v base hfuel hv hN, by simp⟩
  · intro fuel a hfuel ha
    exact ⟨_, ft_putptr_eq fuel a hfuel ha, counted_putptr _ _ _ (ft_putptr_eq fuel a hfuel ha)⟩
  · intro fuel s a rest hfuel hfit
    obtain ⟨e, he, hf⟩ := handle_format_fits fuel s a hfuel hfit
    exact ⟨e, hf rest, he⟩
  · intro fuel s args hs
    exact ⟨_, handle_format_other fuel s args hs,
      counted_handle_format _ _ _ _ _ (handle_format_other fuel s args hs)⟩

/-- Witness for C3: the count of a template with two consuming specifiers. -/
theorem returned_count_is_bytes_written_witness :
    (16 ≤ 16 ∧ 0 ∉ bytes "%s=%d" ∧
      args_match (consumers (pieces (bytes "%s=%d"))) [Arg.str none, Arg.int (-56)]) ∧
    ∃ e, ft_printf 16 (bytes "%s=%d") [Arg.str none, Arg.int (-56)] = .done e ∧
      e.ret = (e.out.length : Nat) :=
  ⟨by decide,
    returned_count_is_bytes_written.1 16 (bytes "%s=%d") [Arg.str none, Arg.int (-56)]
      (by decide) (by decide) (by decide)⟩

/-! ## Numerals -/

/-- The digit list of `numeral` is the positional representation of `v`: every digit
is below the radix, the leading digit is not `0` unless `v = 0`, and the digits
evaluate to `v`. -/
theorem numeral_spec (N v : Nat) (hN : 2 ≤ N) :
    numeral N v ≠ [] ∧ (∀ d ∈ numeral N v, d < N) ∧
      (v ≠ 0 → (numeral N v).head? ≠ some 0) ∧
      (v = 0 → numeral N v = [0]) ∧
      Nat.ofDigits N (numeral N v).reverse = v := by
  by_cases hv : v = 0
  · subst hv
    have h : numeral N 0 = [0] := by simp [numeral]
    rw [h]
    refine ⟨by simp, ?_, fun h => absurd rfl h, fun _ => rfl, by simp [Nat.ofDigits]⟩
    intro d hd
    have : d = 0 := by simpa using hd
    omega
  · have h : numeral N v = (Nat.digits N v).reverse := by simp [numeral, hv]
    have hne : Nat.digits N v ≠ [] := Nat.digits_ne_nil_iff_ne_zero.mpr hv
    rw [h]
    refine ⟨by simpa using hne, ?_, ?_, fun h0 => absurd h0 hv, ?_⟩
    · intro d hd
      exact Nat.digits_lt_base (by omega) (List.mem_reverse.mp hd)
    · intro _ hcon
      rw [List.head?_reverse, List.getLast?_eq_getLast _ hne] at hcon
      exact Nat.getLast_digit_ne_zero N hv (Option.some.inj hcon)
    · rw [List.reverse_reverse, Nat.ofDigits_digits]

/-! ## Signed decimal -/

/-- C4: for every `int` `n`, `ft_putnbr` (also reached through `d` and `i`) returns
and writes the canonical decimal text of `n`: a `-` exactly when `n < 0`, then the
decimal digits of `|n|`, most significant first, without a leading zero (the single
digit `0` for `n = 0`); the count is the number of bytes.  In particular `1234`
gives `1234`, `-56` gives `-56` and `-2147483648` gives the 11 bytes `-2147483648`
with return value 11. -/
theorem ft_putnbr_canonical_decimal (fuel : Nat) (n : Int) (hfuel : 10 ≤ fuel)
    (hlo : INT_MIN ≤ n) (hhi : n ≤ INT_MAX) :
    (∃ ds : List Nat,
      ft_putnbr fuel n = .done
        ⟨(if n < 0 then [Char.toNat '-'] else []) ++ ds.map (fun d => d + Char.toNat '0'),
          (((if n < 0 then 1 else 0) + ds.length : Nat) : Int)⟩ ∧
      ds ≠ [] ∧ (∀ d ∈ ds, d < 10) ∧ (n ≠ 0 → ds.head? ≠ some 0) ∧ (n = 0 → ds = [0]) ∧
      Nat.ofDigits 10 ds.reverse = n.natAbs) ∧
    (∀ rest, handle_format fuel (Char.toNat 'd') (Arg.int n :: rest) =
      (ft_putnbr fuel n).bind fun e => .done (e, rest)) ∧
    (∀ rest, handle_format fuel (Char.toNat 'i') (Arg.int n :: rest) =
      (ft_putnbr fuel n).bind fun e => .done (e, rest)) ∧
    ft_putnbr fuel 1234 = .done ⟨bytes "1234", 4⟩ ∧
    ft_putnbr fuel (-56) = .done ⟨bytes "-56", 3⟩ ∧
    ft_putnbr fuel (-2147483648) = .done ⟨bytes "-2147483648", 11⟩ := by
  refine ⟨⟨numeral 10 n.natAbs, ?_, ?_⟩, ?_, ?_, ?_, ?_, ?_⟩
  · rw [ft_putnbr_eq fuel n hfuel hlo hhi]
    simp only [decimal_int, decimal]
    congr 1
    by_cases hneg : n < 0
    · simp [hneg]; omega
    · simp [hneg]
  · obtain ⟨h1, h2, h3, h4, h5⟩ := numeral_spec 10 n.natAbs (by omega)
    exact ⟨h1, h2, fun hn => h3 (by omega), fun hn => h4 (by omega), h5⟩
  · intro rest; simp [handle_format, va_arg_int, bind_done]
  · intro rest; simp [handle_format, va_arg_int, bind_done]
  · rw [ft_putnbr_eq fuel 1234 hfuel (by decide) (by decide)]
    have : decimal_int 1234 = bytes "1234" := by
      simp [decimal_int, decimal, numeral]; decide
    rw [this]; rfl
  · rw [ft_putnbr_eq fuel (-56) hfuel (by decide) (by decide)]
    have : decimal_int (-56) = bytes "-56" := by
      simp [decimal_int, decimal, numeral]; decide
    rw [this]; rfl
  · rw [ft_putnbr_eq fuel (-2147483648) hfuel (by decide) (by decide)]
    have : decimal_int (-2147483648) = bytes "-2147483648" := by
      simp [decimal_int, decimal, numeral]; decide
    rw [this]; rfl

/-- Witness for C4: the value `-2147483647`, the smallest one that is negated. -/
theorem ft_putnbr_canonical_decimal_witness :
    (10 ≤ 10 ∧ INT_MIN ≤ (-2147483647 : Int) ∧ (-2147483647 : Int) ≤ INT_MAX ∧
      ft_putnbr 10 (-2147483647) = .done ⟨bytes "-2147483647", 11⟩) ∧
    ∃ ds : List Nat,
      ft_putnbr 10 (-2147483647) = .done
        ⟨(if (-2147483647 : Int) < 0 then [Char.toNat '-'] else []) ++
            ds.map (fun d => d + Char.toNat '0'),
          (((if (-2147483647 : Int) < 0 then 1 else 0) + ds.length : Nat) : Int)⟩ ∧
      ds ≠ [] ∧ (∀ d ∈ ds, d < 10) ∧ ((-2147483647 : Int) ≠ 0 → ds.head? ≠ some 0) ∧
      ((-2147483647 : Int) = 0 → ds = [0]) ∧
      Nat.ofDigits 10 ds.reverse = (-2147483647 : Int).natAbs :=
  ⟨by decide,
    (ft_putnbr_canonical_decimal 10 (-2147483647) (by decide) (by decide) (by decide)).1⟩

/-! ## Unsigned numbers in a base -/

/-- C5: for every `unsigned int` `v` and every alphabet of `N ≥ 2` symbols,
`ft_putnbr_base` returns and writes `base[d_k] ... base[d_0]`, where every `d_i < N`,
`d_k ≠ 0` unless `v = 0`, and the sum of `d_i * N^i` is `v`; the count is the number of
digits.  For example `255` with `0123456789abcdef` gives `ff` and `42` with `01` gives
`101010`. -/
theorem ft_putnbr_base_round_trip (fuel v : Nat) (base : List Nat) (hfuel : 32 ≤ fuel)
    (hv : v < UINT_RANGE) (hbase : 0 ∉ base) (hN : 2 ≤ base.length) :
    (∃ ds : List Nat,
      ft_putnbr_base fuel v base =
        .done ⟨ds.reverse.map (fun d => cstr_get base d), (ds.length : Nat)⟩ ∧
      ds ≠ [] ∧ (∀ d ∈ ds, d < base.length) ∧ (v ≠ 0 → ds.getLast? ≠ some 0) ∧
      (v = 0 → ds = [0]) ∧ Nat.ofDigits base.length ds = v) ∧
    ft_putnbr_base fuel 255 (bytes "0123456789abcdef") = .done ⟨bytes "ff", 2⟩ ∧
    ft_putnbr_base fuel 42 (bytes "01") = .done ⟨bytes "101010", 6⟩ := by
  have hlen := cstr_len_eq_length base hbase
  refine ⟨⟨(numeral base.length v).reverse, ?_, ?_⟩, ?_, ?_⟩
  · have h := ft_putnbr_base_returns fuel v base hfuel hv (by omega)
    rw [hlen] at h
    rw [h]
    simp
  · obtain ⟨h1, h2, h3, h4, h5⟩ := numeral_spec base.length v hN
    refine ⟨by simpa using h1, fun d hd => h2 d (List.mem_reverse.mp hd), ?_, ?_, h5⟩
    · intro hv0
      rw [List.getLast?_reverse]
      exact h3 hv0
    · intro hv0
      rw [h4 hv0]; rfl
  · rw [ft_putnbr_base_returns fuel 255 _ hfuel (by decide) (by decide)]
    have h16 : cstr_len (bytes "0123456789abcdef") = 16 := by decide
    rw [h16]
    have : numeral 16 255 = [15, 15] := by simp [numeral]
    rw [this]; decide
  · rw [ft_putnbr_base_returns fuel 42 _ hfuel (by decide) (by decide)]
    have h2 : cstr_len (bytes "01") = 2 := by decide
    rw [h2]
    have : numeral 2 42 = [1, 0, 1, 0, 1, 0] := by simp [numeral]
    rw [this]; decide

/-- Witness for C5: the largest `unsigned int` in binary. -/
theorem ft_putnbr_base_round_trip_witness :
    (32 ≤ 32 ∧ 4294967295 < UINT_RANGE ∧ 0 ∉ bytes "01" ∧ 2 ≤ (bytes "01").length ∧
      ft_putnbr_base 32 4294967295 (bytes "01") =
        .done ⟨bytes "11111111111111111111111111111111", 32⟩) ∧
    ∃ ds : List Nat,
      ft_putnbr_base 32 4294967295 (bytes "01") =
        .done ⟨ds.reverse.map (fun d => cstr_get (bytes "01") d), (ds.length : Nat)⟩ ∧
      ds ≠ [] ∧ (∀ d ∈ ds, d < (bytes "01").length) ∧
      (4294967295 ≠ 0 → ds.getLast? ≠ some 0) ∧
      (4294967295 = 0 → ds = [0]) ∧ Nat.ofDigits (bytes "01").length ds = 4294967295 :=
  ⟨by decide,
    (ft_putnbr_base_round_trip 32 4294967295 (bytes "01") (by decide) (by decide) (by decide)
      (by decide)).1⟩

theorem decimal_symbol (d : Nat) (hd : d < 10) :
    cstr_get (bytes "0123456789") d = d + Char.toNat '0' := by
  interval_cases d <;> rfl

theorem hex_lower_symbol (d : Nat) (hd : d < 16) :
    cstr_get (bytes "0123456789abcdef") d = hex_symbol_lower d := by
  interval_cases d <;> rfl

theorem hex_upper_symbol (d : Nat) (hd : d < 16) :
    cstr_get (bytes "0123456789ABCDEF") d = hex_symbol_upper d := by
  interval_cases d <;> rfl

theorem map_decimal_alphabet (v : Nat) :
    (numeral 10 v).map (cstr_get (bytes "0123456789")) = decimal v := by
  unfold decimal
  exact List.map_congr_left fun d hd =>
    decimal_symbol d ((numeral_spec 10 v (by omega)).2.1 d hd)

theorem map_hex_lower_alphabet (v : Nat) :
    (numeral 16 v).map (cstr_get (bytes "0123456789abcdef")) = hex_lower v := by
  unfold hex_lower
  exact List.map_congr_left fun d hd =>
    hex_lower_symbol d ((numeral_spec 16 v (by omega)).2.1 d hd)

theorem map_hex_upper_alphabet (v : Nat) :
    (numeral 16 v).map (cstr_get (bytes "0123456789ABCDEF")) = hex_upper v := by
  unfold hex_upper
  exact List.map_congr_left fun d hd =>
    hex_upper_symbol d ((numeral_spec 16 v (by omega)).2.1 d hd)

/-- The first symbol of a numeral of a non-zero number is not the symbol `0`, for a
symbol table that maps only the digit `0` to it. -/
theorem head_symbol_ne_zero (N v : Nat) (sym : Nat → Nat) (hN : 2 ≤ N) (hv : v ≠ 0)
    (hsym : ∀ d, d < N → sym d = Char.toNat '0' → d = 0) :
    ((numeral N v).map sym).head? ≠ some (Char.toNat '0') := by
  obtain ⟨h1, h2, h3, _, _⟩ := numeral_spec N v hN
  cases hn : numeral N v with
  | nil => exact absurd hn h1
  | cons d ds =>
    rw [hn] at h2 h3
    intro hcon
    simp only [List.map_cons, List.head?_cons, Option.some.injEq] at hcon
    have hd0 : d = 0 := hsym d (h2 d (by simp)) hcon
    exact h3 hv (by simp [hd0])

/-- C6: for every `unsigned int` `v`, `handle_format` returns and renders `v` in
decimal for `u`, in lowercase hexadecimal for `x` and in uppercase hexadecimal for
`X`, each without leading zeros, consuming that one argument; in particular `x` on
`255` writes `ff`, `X` on `255` writes `FF` and `u` on `4294967295` writes
`4294967295`. -/
theorem handle_format_unsigned (fuel v : Nat) (hfuel : 10 ≤ fuel) (hv : v < UINT_RANGE) :
    (∀ rest, handle_format fuel (Char.toNat 'u') (Arg.uint v :: rest) =
      .done (⟨decimal v, ((decimal v).length : Nat)⟩, rest)) ∧
    (∀ rest, handle_format fuel (Char.toNat 'x') (Arg.uint v :: rest) =
      .done (⟨hex_lower v, ((hex_lower v).length : Nat)⟩, rest)) ∧
    (∀ rest, handle_format fuel (Char.toNat 'X') (Arg.uint v :: rest) =
      .done (⟨hex_upper v, ((hex_upper v).length : Nat)⟩, rest)) ∧
    (v ≠ 0 → (decimal v).head? ≠ some (Char.toNat '0') ∧
      (hex_lower v).head? ≠ some (Char.toNat '0') ∧
      (hex_upper v).head? ≠ some (Char.toNat '0')) ∧
    (v = 0 → decimal v = bytes "0" ∧ hex_lower v = bytes "0" ∧ hex_upper v = bytes "0") ∧
    (∀ rest, handle_format fuel (Char.toNat 'x') (Arg.uint 255 :: rest) =
      .done (⟨bytes "ff", 2⟩, rest)) ∧
    (∀ rest, handle_format fuel (Char.toNat 'X') (Arg.uint 255 :: rest) =
      .done (⟨bytes "FF", 2⟩, rest)) ∧
    (∀ rest, handle_format fuel (Char.toNat 'u') (Arg.uint 4294967295 :: rest) =
      .done (⟨bytes "4294967295", 10⟩, rest)) := by
  have hu : ∀ w, w < UINT_RANGE → ∀ rest,
      handle_format fuel (Char.toNat 'u') (Arg.uint w :: rest) =
        .done (⟨decimal w, ((decimal w).length : Nat)⟩, rest) := by
    intro w hw rest
    rw [handle_format_u fuel w rest hfuel hw, map_decimal_alphabet]
    simp [decimal]
  have hx : ∀ w, w < UINT_RANGE → ∀ rest,
      handle_format fuel (Char.toNat 'x') (Arg.uint w :: rest) =
        .done (⟨hex_lower w, ((hex_lower w).length : Nat)⟩, rest) := by
    intro w hw rest
    rw [handle_format_x fuel w rest (by omega) hw, map_hex_lower_alphabet]
    simp [hex_lower]
  have hX : ∀ w, w < UINT_RANGE → ∀ rest,
      handle_format fuel (Char.toNat 'X') (Arg.uint w :: rest) =
        .done (⟨hex_upper w, ((hex_upper w).length : Nat)⟩, rest) := by
    intro w hw rest
    rw [handle_format_X fuel w rest (by omega) hw, map_hex_upper_alphabet]
    simp [hex_upper]
  refine ⟨hu v hv, hx v hv, hX v hv, ?_, ?_, ?_, ?_, ?_⟩
  · intro hv0
    refine ⟨?_, ?_, ?_⟩
    · exact head_symbol_ne_zero 10 v _ (by omega) hv0 (fun d _ h => by
        have h48 : Char.toNat '0' = 48 := by decide
        rw [h48] at h; omega)
    · exact head_symbol_ne_zero 16 v _ (by omega) hv0 (fun d _ h => by
        have h48 : Char.toNat '0' = 48 := by decide
        have h97 : Char.toNat 'a' = 97 := by decide
        unfold hex_symbol_lower at h
        rw [h48, h97] at h
        split at h <;> omega)
    · exact head_symbol_ne_zero 16 v _ (by omega) hv0 (fun d _ h => by
        have h48 : Char.toNat '0' = 48 := by decide
        have h65 : Char.toNat 'A' = 65 := by decide
        unfold hex_symbol_upper at h
        rw [h48, h65] at h
        split at h <;> omega)
  · intro hv0
    subst hv0
    exact ⟨by decide, by decide, by decide⟩
  · intro rest
    rw [hx 255 (by decide) rest]
    have : hex_lower 255 = bytes "ff" := by
      have : numeral 16 255 = [15, 15] := by simp [numeral]
      rw [hex_lower, this]; decide
    rw [this]; rfl
  · intro rest
    rw [hX 255 (by decide) rest]
    have : hex_upper 255 = bytes "FF" := by
      have : numeral 16 255 = [15, 15] := by simp [numeral]
      rw [hex_upper, this]; decide
    rw [this]; rfl
  · intro rest
    rw [hu 4294967295 (by decide) rest]
    have : decimal 4294967295 = bytes "4294967295" := by
      have : numeral 10 4294967295 = [4, 2, 9, 4, 9, 6, 7, 2, 9, 5] := by simp [numeral]
      rw [decimal, this]; decide
    rw [this]; rfl

/-- Witness for C6: the value `48879`, which is `beef` in hexadecimal. -/
theorem handle_format_unsigned_witness :
    (10 ≤ 10 ∧ 48879 < UINT_RANGE ∧
      handle_format 10 (Char.toNat 'X') [Arg.uint 48879] = .done (⟨bytes "BEEF", 4⟩, [])) ∧
    ∀ rest, handle_format 10 (Char.toNat 'x') (Arg.uint 48879 :: rest) =
      .done (⟨hex_lower 48879, ((hex_lower 48879).length : Nat)⟩, rest) :=
  ⟨by decide, (handle_format_unsigned 10 48879 (by decide) (by decide)).2.1⟩

/-! ## Strings -/

/-- The string loop stops at the first terminator and writes what precedes it. -/
theorem ft_putstr_loop_terminator (s junk : List Nat) (h : 0 ∉ s) :
    ft_putstr_loop (s ++ 0 :: junk) = ⟨s, (s.length : Nat)⟩ := by
  induction s with
  | nil => simp [ft_putstr_loop, Emit.nil]
  | cons c cs ih =>
    have hc : c ≠ 0 := fun e => h (by simp [e])
    have hcs : 0 ∉ cs := fun e => h (by simp [e])
    simp [ft_putstr_loop, hc, ih hcs, write, add_comm]

/-- C7: `ft_putstr` (specifier `s`) writes the 6 bytes `(null)` and returns 6 for the
null pointer; for a string it writes exactly the characters before the terminator, in
order, and returns their number.  `Hola` gives `Hola` and 4, the empty string
gives nothing and 0. -/
theorem ft_putstr_spec (s : List Nat) (hs : 0 ∉ s) :
    ft_putstr none = ⟨bytes "(null)", 6⟩ ∧
    ft_putstr (some s) = ⟨s, (s.length : Nat)⟩ ∧
    (∀ junk, ft_putstr (some (s ++ 0 :: junk)) = ⟨s, (s.length : Nat)⟩) ∧
    (∀ fuel rest, handle_format fuel (Char.toNat 's') (Arg.str none :: rest) =
      .done (⟨bytes "(null)", 6⟩, rest)) ∧
    (∀ fuel rest, handle_format fuel (Char.toNat 's') (Arg.str (some s) :: rest) =
      .done (⟨s, (s.length : Nat)⟩, rest)) ∧
    ft_putstr (some (bytes "Hola")) = ⟨bytes "Hola", 4⟩ ∧
    ft_putstr (some []) = ⟨[], 0⟩ := by
  have h1 : ft_putstr none = ⟨bytes "(null)", 6⟩ := by decide
  have h2 : ft_putstr (some s) = ⟨s, (s.length : Nat)⟩ := by
    simp [ft_putstr, ft_putstr_loop_eq s hs]
  refine ⟨h1, h2, ?_, ?_, ?_, by decide, by decide⟩
  · intro junk
    simp [ft_putstr, ft_putstr_loop_terminator s junk hs]
  · intro fuel rest
    rw [handle_format_s, h1]
  · intro fuel rest
    rw [handle_format_s, h2]

/-- Witness for C7: the string `Hola`. -/
theorem ft_putstr_spec_witness :
    0 ∉ bytes "Hola" ∧
    ft_putstr (some (bytes "Hola")) = ⟨bytes "Hola", ((bytes "Hola").length : Nat)⟩ :=
  ⟨by decide, (ft_putstr_spec (bytes "Hola") (by decide)).2.1⟩

/-! ## Pointers -/

theorem hex_symbol_value_lower (d : Nat) (hd : d < 16) :
    hex_symbol_value (hex_symbol_lower d) = d := by
  interval_cases d <;> rfl

theorem hex_value_hex_lower (a : Nat) : hex_value (hex_lower a) = a := by
  obtain ⟨_, h2, _, _, h5⟩ := numeral_spec 16 a (by omega)
  unfold hex_value hex_lower
  rw [List.map_map]
  have : (numeral 16 a).map (hex_symbol_value ∘ hex_symbol_lower) = numeral 16 a := by
    conv_rhs => rw [← List.map_id (numeral 16 a)]
    exact List.map_congr_left fun d hd => hex_symbol_value_lower d (h2 d hd)
  rw [this, h5]

theorem hex_lower_mem (a c : Nat) (hc : c ∈ hex_lower a) :
    c ∈ bytes "0123456789abcdef" := by
  obtain ⟨_, h2, _, _, _⟩ := numeral_spec 16 a (by omega)
  unfold hex_lower at hc
  obtain ⟨d, hd, rfl⟩ := List.mem_map.mp hc
  have hd16 := h2 d hd
  interval_cases d <;> decide

/-- C8: for every 64-bit address `a`, `ft_putptr` (specifier `p`) returns; it writes
the 3 bytes `0x0` when `a = 0`, and otherwise `0x` followed only by lowercase
hexadecimal digits, the first of which is not `0`, whose base-16 value is the whole
of `a`; the count is the number of bytes.  For example `0x7ffeefbff5c8` is written
as `0x7ffeefbff5c8`. -/
theorem ft_putptr_spec (fuel a : Nat) (hfuel : 16 ≤ fuel) (ha : a < ULONG_RANGE) :
    (a = 0 → ft_putptr fuel a = .done ⟨bytes "0x0", 3⟩) ∧
    (a ≠ 0 → ∃ hex : List Nat,
      ft_putptr fuel a = .done ⟨bytes "0x" ++ hex, ((2 + hex.length : Nat) : Int)⟩ ∧
      hex ≠ [] ∧ (∀ c ∈ hex, c ∈ bytes "0123456789abcdef") ∧
      hex.head? ≠ some (Char.toNat '0') ∧ hex_value hex = a) ∧
    (∀ rest, handle_format fuel (Char.toNat 'p') (Arg.ptr a :: rest) =
      (ft_putptr fuel a).bind fun e => .done (e, rest)) ∧
    ft_putptr fuel 0x7ffeefbff5c8 = .done ⟨bytes "0x7ffeefbff5c8", 14⟩ := by
  have hgen : ∀ b, b < ULONG_RANGE → ft_putptr fuel b =
      .done ⟨bytes "0x" ++ hex_lower b, ((2 + (hex_lower b).length : Nat) : Int)⟩ := by
    intro b hb
    rw [ft_putptr_eq fuel b hfuel hb, map_hex_lower_alphabet]
    simp [hex_lower]
  refine ⟨?_, ?_, ?_, ?_⟩
  · intro h0
    subst h0
    rw [hgen 0 ha]
    decide
  · intro h0
    refine ⟨hex_lower a, hgen a ha, ?_, hex_lower_mem a, ?_, hex_value_hex_lower a⟩
    · have := (numeral_spec 16 a (by omega)).1
      simpa [hex_lower] using this
    · exact head_symbol_ne_zero 16 a _ (by omega) h0 (fun d _ h => by
        have h48 : Char.toNat '0' = 48 := by decide
        have h97 : Char.toNat 'a' = 97 := by decide
        unfold hex_symbol_lower at h
        rw [h48, h97] at h
        split at h <;> omega)
  · intro rest
    simp [handle_format, va_arg_ptr, bind_done]
  · rw [hgen _ (by decide)]
    have : numeral 16 0x7ffeefbff5c8 = [7, 15, 15, 14, 14, 15, 11, 15, 15, 5, 12, 8] := by
      simp [numeral]
    rw [hex_lower, this]
    decide

/-- Witness for C8: the largest 64-bit address. -/
theorem ft_putptr_spec_witness :
    (16 ≤ 16 ∧ 18446744073709551615 < ULONG_RANGE ∧ 18446744073709551615 ≠ 0 ∧
      ft_putptr 16 18446744073709551615 = .done ⟨bytes "0xffffffffffffffff", 18⟩) ∧
    ∃ hex : List Nat,
      ft_putptr 16 18446744073709551615 =
        .done ⟨bytes "0x" ++ hex, ((2 + hex.length : Nat) : Int)⟩ ∧
      hex ≠ [] ∧ (∀ c ∈ hex, c ∈ bytes "0123456789abcdef") ∧
      hex.head? ≠ some (Char.toNat '0') ∧ hex_value hex = 18446744073709551615 :=
  ⟨by decide,
    (ft_putptr_spec 16 18446744073709551615 (by decide) (by decide)).2.1 (by decide)⟩

/-! ## The character `%` in a template -/

theorem getLast?_cons_of_ne_nil {α : Type} (a : α) (l : List α) (h : l ≠ []) :
    (a :: l).getLast? = l.getLast? := by
  cases l with
  | nil => exact absurd rfl h
  | cons b l => exact List.getLast?_cons_cons

theorem pieces_ne_nil : ∀ t : List Nat, t ≠ [] → pieces t ≠ [] := by
  intro t
  induction t using list_two_step with
  | h0 => intro h; exact absurd rfl h
  | h1 c => intro _; simp [pieces]
  | h2 c s rest _ _ =>
    intro _
    rw [pieces]
    split <;> simp

theorem seq_assoc (a b c : Emit) : (a.seq b).seq c = a.seq (b.seq c) := by
  simp [Emit.seq, add_assoc]

/-- A final `%` that is a unit of its own is written after everything the scanner
does on the template before it, whatever that is. -/
theorem ft_printf_loop_trailing (fuel : Nat) :
    ∀ t : List Nat, 0 ∉ t →
      (pieces (t ++ [Char.toNat '%'])).getLast? = some (Piece.lit (Char.toNat '%')) →
      ∀ args, ft_printf_loop fuel (t ++ [Char.toNat '%']) args =
        (ft_printf_loop fuel t args).bind fun (e, a) =>
          .done (e.seq (write [Char.toNat '%']), a) := by
  intro t
  induction t using list_two_step with
  | h0 => intro _ _ args; rfl
  | h1 c =>
    intro h0 hlast args
    have hc : c ≠ 0 := fun e => h0 (by simp [e])
    by_cases hp : c = Char.toNat '%'
    · subst hp
      exact absurd hlast (by decide)
    · have hl : [c] ++ [Char.toNat '%'] = c :: Char.toNat '%' :: [] := rfl
      have hp37 : c ≠ 37 := hp
      rw [hl]
      simp [ft_printf_loop, hc, hp37, Outcome.bind]
  | h2 c s rest ih1 ih2 =>
    intro h0 hlast args
    have hc : c ≠ 0 := fun e => h0 (by simp [e])
    have hs : s ≠ 0 := fun e => h0 (by simp [e])
    have hrest : 0 ∉ rest := fun e => h0 (by simp [e])
    have hsrest : 0 ∉ s :: rest := fun e => h0 (List.mem_cons_of_mem _ e)
    have hl : (c :: s :: rest) ++ [Char.toNat '%'] = c :: s :: (rest ++ [Char.toNat '%']) := rfl
    rw [hl] at hlast ⊢
    by_cases hp : c = Char.toNat '%'
    · rw [pieces, if_pos hp, getLast?_cons_of_ne_nil _ _ (pieces_ne_nil _ (by simp))] at hlast
      rw [ft_printf_loop, if_neg hc, if_pos ⟨hp, hs⟩, ft_printf_loop, if_neg hc,
        if_pos ⟨hp, hs⟩]
      cases hf : handle_format fuel s args with
      | done x =>
        obtain ⟨e, a1⟩ := x
        rw [bind_done, bind_done]
        dsimp only []
        rw [ih1 hrest hlast a1]
        cases hr : ft_printf_loop fuel rest a1 with
        | done y =>
          obtain ⟨r, a2⟩ := y
          simp [bind_done, seq_assoc]
        | undefined => rfl
        | nofuel => rfl
      | undefined => rfl
      | nofuel => rfl
    · have hl2 : s :: (rest ++ [Char.toNat '%']) = (s :: rest) ++ [Char.toNat '%'] := rfl
      rw [pieces, if_neg hp, getLast?_cons_of_ne_nil _ _ (pieces_ne_nil _ (by simp)), hl2]
        at hlast
      rw [ft_printf_loop, if_neg hc, if_neg (fun h => hp h.1), ft_printf_loop, if_neg hc,
        if_neg (fun h => hp h.1), hl2, ih2 hsrest hlast args]
      cases hr : ft_printf_loop fuel (s :: rest) args with
      | done y =>
        obtain ⟨r, a2⟩ := y
        simp [bind_done, seq_assoc]
      | undefined => rfl
      | nofuel => rfl

theorem pieces_literal_trailing : ∀ t : List Nat, Char.toNat '%' ∉ t →
    (pieces (t ++ [Char.toNat '%'])).getLast? = some (Piece.lit (Char.toNat '%')) := by
  intro t
  induction t using list_two_step with
  | h0 => intro _; rfl
  | h1 c =>
    intro hp
    have hcp : c ≠ Char.toNat '%' := fun e => hp (by simp [e])
    have hl : [c] ++ [Char.toNat '%'] = c :: Char.toNat '%' :: [] := rfl
    rw [hl, pieces, if_neg hcp]
    rfl
  | h2 c s rest _ ih2 =>
    intro hp
    have hcp : c ≠ Char.toNat '%' := fun e => hp (by simp [e])
    have hprest : Char.toNat '%' ∉ s :: rest := fun e => hp (List.mem_cons_of_mem _ e)
    have hl : (c :: s :: rest) ++ [Char.toNat '%'] = c :: s :: (rest ++ [Char.toNat '%']) := rfl
    have hl2 : s :: (rest ++ [Char.toNat '%']) = (s :: rest) ++ [Char.toNat '%'] := rfl
    rw [hl, pieces, if_neg hcp, getLast?_cons_of_ne_nil _ _ (pieces_ne_nil _ (by simp)), hl2]
    exact ih2 hprest

/-- C9: when the final character of a template is a `%` that the scanner reaches as a
current character (the last unit of the template is the literal `%`), that `%` is
written as one literal byte after the output of the rest, adds 1 to the count and
reads no argument.  In particular, for every text `t` without `%`, `ft_printf` on `t`
followed by `%` writes `t` followed by `%` and returns the length of `t` plus 1:
`abc%` gives `abc%` and 4, `%%%` gives `%%` and 2. -/
theorem ft_printf_trailing_percent (fuel : Nat) (t : List Nat) (args : List Arg)
    (ht : 0 ∉ t) :
    ((pieces (t ++ [Char.toNat '%'])).getLast? = some (Piece.lit (Char.toNat '%')) →
      ∀ (e : Emit) (rest : List Arg), ft_printf_loop fuel t args = .done (e, rest) →
        ft_printf_loop fuel (t ++ [Char.toNat '%']) args =
          .done (⟨e.out ++ [Char.toNat '%'], e.ret + 1⟩, rest)) ∧
    (Char.toNat '%' ∉ t →
      ft_printf fuel (t ++ [Char.toNat '%']) args =
        .done ⟨t ++ [Char.toNat '%'], ((t.length + 1 : Nat) : Int)⟩ ∧
      ft_printf_loop fuel (t ++ [Char.toNat '%']) args =
        .done (⟨t ++ [Char.toNat '%'], ((t.length + 1 : Nat) : Int)⟩, args)) ∧
    ft_printf fuel (bytes "abc%") args = .done ⟨bytes "abc%", 4⟩ ∧
    ft_printf_loop fuel (bytes "abc%") args = .done (⟨bytes "abc%", 4⟩, args) ∧
    ft_printf fuel (bytes "%%%") args = .done ⟨bytes "%%", 2⟩ ∧
    ft_printf_loop fuel (bytes "%%%") args = .done (⟨bytes "%%", 2⟩, args) := by
  refine ⟨?_, ?_, rfl, rfl, rfl, rfl⟩
  · intro hlast e rest he
    rw [ft_printf_loop_trailing fuel t ht hlast args, he, bind_done]
    simp [Emit.seq, write]
  · intro hp
    have h : ft_printf_loop fuel (t ++ [Char.toNat '%']) args =
        .done (⟨t ++ [Char.toNat '%'], ((t.length + 1 : Nat) : Int)⟩, args) := by
      rw [ft_printf_loop_trailing fuel t ht (pieces_literal_trailing t hp) args,
        ft_printf_loop_literal fuel t ht hp args, bind_done]
      simp [Emit.seq, write]
    exact ⟨by rw [ft_printf, h, bind_done], h⟩

/-- Witness for C9: the template `a%%%`, whose last `%` follows the pair `%%`. -/
theorem ft_printf_trailing_percent_witness :
    (0 ∉ bytes "a%%" ∧
      (pieces (bytes "a%%" ++ [Char.toNat '%'])).getLast? = some (Piece.lit (Char.toNat '%')) ∧
      ft_printf_loop 0 (bytes "a%%") [Arg.int 1] = .done (⟨bytes "a%", 2⟩, [Arg.int 1])) ∧
    ft_printf_loop 0 (bytes "a%%" ++ [Char.toNat '%']) [Arg.int 1] =
      .done (⟨(⟨bytes "a%", 2⟩ : Emit).out ++ [Char.toNat '%'],
        (⟨bytes "a%", 2⟩ : Emit).ret + 1⟩, [Arg.int 1]) :=
  ⟨by decide,
    (ft_printf_trailing_percent 0 (bytes "a%%") [Arg.int 1] (by decide)).1 (by decide)
      ⟨bytes "a%", 2⟩ [Arg.int 1] (by decide)⟩

/-- C10: `ft_printf("%%")` writes exactly one byte, `%`, and returns 1, whatever the
argument list, which it leaves unread. -/
theorem ft_printf_percent_percent (fuel : Nat) (args : List Arg) :
    ft_printf fuel (bytes "%%") args = .done ⟨[Char.toNat '%'], 1⟩ ∧
    ft_printf_loop fuel (bytes "%%") args = .done (⟨[Char.toNat '%'], 1⟩, args) :=
  ⟨rfl, rfl⟩

/-! ## The argument cursor -/

theorem va_arg_int_cursor (args rest : List Arg) (v : Int)
    (h : va_arg_int args = .done (v, rest)) : ∃ a, args = a :: rest := by
  cases args with
  | nil => simp [va_arg_int] at h
  | cons a as =>
    cases a <;> simp [va_arg_int] at h <;> exact ⟨_, by rw [h.2]⟩

theorem va_arg_uint_cursor (args rest : List Arg) (v : Nat)
    (h : va_arg_uint args = .done (v, rest)) : ∃ a, args = a :: rest := by
  cases args with
  | nil => simp [va_arg_uint] at h
  | cons a as =>
    cases a <;> simp [va_arg_uint] at h <;> exact ⟨_, by rw [h.2]⟩

theorem va_arg_str_cursor (args rest : List Arg) (v : Option (List Nat))
    (h : va_arg_str args = .done (v, rest)) : ∃ a, args = a :: rest := by
  cases args with
  | nil => simp [va_arg_str] at h
  | cons a as =>
    cases a <;> simp [va_arg_str] at h
    exact ⟨_, by rw [h.2]⟩

theorem va_arg_ptr_cursor (args rest : List Arg) (v : Nat)
    (h : va_arg_ptr args = .done (v, rest)) : ∃ a, args = a :: rest := by
  cases args with
  | nil => simp [va_arg_ptr] at h
  | cons a as =>
    cases a <;> simp [va_arg_ptr] at h
    exact ⟨_, by rw [h.2]⟩

/-- Whenever the dispatcher returns on a consuming specifier, the cursor it returns is
the tail of the one it received. -/
theorem handle_format_advances (fuel s : Nat) (args rest : List Arg) (e : Emit)
    (hs : consuming s) (h : handle_format fuel s args = .done (e, rest)) :
    ∃ a, args = a :: rest := by
  unfold handle_format at h
  split at h
  · obtain ⟨⟨v, r⟩, hv, h⟩ := bind_eq_done h
    obtain ⟨_, hr⟩ := Prod.mk.inj (Outcome.done.inj h)
    subst hr; exact va_arg_int_cursor _ _ _ hv
  split at h
  · obtain ⟨⟨v, r⟩, hv, h⟩ := bind_eq_done h
    obtain ⟨_, hr⟩ := Prod.mk.inj (Outcome.done.inj h)
    subst hr; exact va_arg_str_cursor _ _ _ hv
  split at h
  · obtain ⟨⟨v, r⟩, hv, h⟩ := bind_eq_done h
    obtain ⟨c, _, h⟩ := bind_eq_done h
    obtain ⟨_, hr⟩ := Prod.mk.inj (Outcome.done.inj h)
    subst hr; exact va_arg_ptr_cursor _ _ _ hv
  split at h
  · obtain ⟨⟨v, r⟩, hv, h⟩ := bind_eq_done h
    obtain ⟨c, _, h⟩ := bind_eq_done h
    obtain ⟨_, hr⟩ := Prod.mk.inj (Outcome.done.inj h)
    subst hr; exact va_arg_int_cursor _ _ _ hv
  split at h
  · obtain ⟨⟨v, r⟩, hv, h⟩ := bind_eq_done h
    obtain ⟨c, _, h⟩ := bind_eq_done h
    obtain ⟨_, hr⟩ := Prod.mk.inj (Outcome.done.inj h)
    subst hr; exact va_arg_uint_cursor _ _ _ hv
  split at h
  · obtain ⟨⟨v, r⟩, hv, h⟩ := bind_eq_done h
    obtain ⟨c, _, h⟩ := bind_eq_done h
    obtain ⟨_, hr⟩ := Prod.mk.inj (Outcome.done.inj h)
    subst hr; exact va_arg_uint_cursor _ _ _ hv
  split at h
  · obtain ⟨⟨v, r⟩, hv, h⟩ := bind_eq_done h
    obtain ⟨c, _, h⟩ := bind_eq_done h
    obtain ⟨_, hr⟩ := Prod.mk.inj (Outcome.done.inj h)
    subst hr; exact va_arg_uint_cursor _ _ _ hv
  · rename_i h1 h2 h3 h4 h5 h6 h7
    exfalso
    have hmem : s = 99 ∨ s = 115 ∨ s = 112 ∨ s = 100 ∨ s = 105 ∨ s = 117 ∨ s = 120 ∨ s = 88 := by
      simpa [consuming, bytes] using hs
    rcases hmem with r | r | r | r | r | r | r | r
    · exact h1 r
    · exact h2 r
    · exact h3 r
    · exact h4 (Or.inl r)
    · exact h4 (Or.inr r)
    · exact h5 r
    · exact h6 r
    · exact h7 r

/-- C11: for every specifier character and every argument cursor, `handle_format`
advances the cursor by exactly one position when the specifier is one of `c`, `s`,
`p`, `d`, `i`, `u`, `x`, `X` (it returns on an argument of the type read, with the
tail of the cursor, and every call that returns at all returns the tail), and leaves
the cursor unchanged when the specifier is `%` or any other character. -/
theorem handle_format_cursor :
    (∀ (fuel s : Nat) (a : Arg) (rest : List Arg), 16 ≤ fuel → consuming s → fits s a →
      ∃ e, handle_format fuel s (a :: rest) = .done (e, rest)) ∧
    (∀ (fuel s : Nat) (args rest : List Arg) (e : Emit), consuming s →
      handle_format fuel s args = .done (e, rest) → ∃ a, args = a :: rest) ∧
    (∀ (fuel s : Nat) (args : List Arg), ¬ consuming s →
      ∃ e, handle_format fuel s args = .done (e, args)) ∧
    (∀ s : Nat, consuming s ↔ s ∈ bytes "cspdiuxX") := by
  refine ⟨?_, ?_, ?_, fun s => Iff.rfl⟩
  · intro fuel s a rest hfuel _ hfit
    obtain ⟨e, _, hf⟩ := handle_format_fits fuel s a hfuel hfit
    exact ⟨e, hf rest⟩
  · intro fuel s args rest e hs h
    exact handle_format_advances fuel s args rest e hs h
  · intro fuel s args hs
    exact ⟨_, handle_format_other fuel s args hs⟩

/-- Witness for C11: the specifier `d` on a cursor of two arguments. -/
theorem handle_format_cursor_witness :
    (16 ≤ 16 ∧ consuming (Char.toNat 'd') ∧ fits (Char.toNat 'd') (Arg.int 7) ∧
      handle_format 16 (Char.toNat 'd') [Arg.int 7, Arg.str none] =
        .done (⟨bytes "7", 1⟩, [Arg.str none])) ∧
    ∃ e, handle_format 16 (Char.toNat 'd') (Arg.int 7 :: [Arg.str none]) =
      .done (e, [Arg.str none]) :=
  ⟨by decide,
    handle_format_cursor.1 16 (Char.toNat 'd') (Arg.int 7) [Arg.str none] (by decide)
      (by decide) (by decide)⟩

/-! ## Unrecognised specifiers -/

theorem nil_seq (e : Emit) : Emit.nil.seq e = e := by
  simp [Emit.seq, Emit.nil]

/-- C12: for every character `s` outside `c`, `s`, `p`, `d`, `i`, `u`, `x`, `X`, `%`,
`handle_format` writes nothing and returns 0 with the cursor unchanged, and the
scanner skips both the `%` and `s` (a template character, hence not the terminator):
`ft_printf` on `%`, `s` and `rest` has the output, count and argument consumption of
`ft_printf` on `rest`. -/
theorem unknown_specifier_dropped (fuel s : Nat) (hs : ¬ consuming s)
    (hp : s ≠ Char.toNat '%') :
    (∀ args, handle_format fuel s args = .done (⟨[], 0⟩, args)) ∧
    (s ≠ 0 → ∀ (rest : List Nat) (args : List Arg),
      ft_printf_loop fuel (Char.toNat '%' :: s :: rest) args = ft_printf_loop fuel rest args ∧
      ft_printf fuel (Char.toNat '%' :: s :: rest) args = ft_printf fuel rest args) := by
  have hf : ∀ args, handle_format fuel s args = .done (⟨[], 0⟩, args) := by
    intro args
    rw [handle_format_other fuel s args hs, if_neg hp]
    rfl
  refine ⟨hf, ?_⟩
  intro h0 rest args
  have hloop : ft_printf_loop fuel (Char.toNat '%' :: s :: rest) args
      = ft_printf_loop fuel rest args := by
    rw [ft_printf_loop, if_neg (by decide), if_pos ⟨rfl, h0⟩, hf args, bind_done]
    dsimp only []
    cases ft_printf_loop fuel rest args with
    | done y =>
      obtain ⟨r, a2⟩ := y
      rw [bind_done]
      dsimp only []
      rw [show (⟨[], 0⟩ : Emit) = Emit.nil from rfl, nil_seq]
    | undefined => rfl
    | nofuel => rfl
  exact ⟨hloop, by rw [ft_printf, ft_printf, hloop]⟩

/-- Witness for C12: the unrecognised specifier `q` before `a%d`. -/
theorem unknown_specifier_dropped_witness :
    (¬ consuming (Char.toNat 'q') ∧ Char.toNat 'q' ≠ Char.toNat '%' ∧ Char.toNat 'q' ≠ 0 ∧
      ft_printf_loop 10 (bytes "%qa%d") [Arg.int 5, Arg.int 6] =
        .done (⟨bytes "a5", 2⟩, [Arg.int 6])) ∧
    ft_printf_loop 10 (Char.toNat '%' :: Char.toNat 'q' :: bytes "a%d") [Arg.int 5, Arg.int 6] =
      ft_printf_loop 10 (bytes "a%d") [Arg.int 5, Arg.int 6] :=
  ⟨by decide,
    ((unknown_specifier_dropped 10 (Char.toNat 'q') (by decide) (by decide)).2 (by decide)
      (bytes "a%d") [Arg.int 5, Arg.int 6]).1⟩

/-! ## The character specifier -/

/-- C13: for every integer argument `a` read by the specifier `c`, the output is
exactly one byte, `a` reduced to its low 8 bits, and the count is 1; for `a = 0` a
single zero byte is written, not nothing. -/
theorem handle_format_char (fuel : Nat) (a : Int) (rest : List Arg) :
    handle_format fuel (Char.toNat 'c') (Arg.int a :: rest) =
      .done (⟨[(a % 256).toNat], 1⟩, rest) ∧
    (a % 256).toNat < 256 ∧ ((a % 256).toNat : Int) ≡ a [ZMOD 256] ∧
    handle_format fuel (Char.toNat 'c') (Arg.int 0 :: rest) = .done (⟨[0], 1⟩, rest) ∧
    ft_printf fuel (bytes "%c") [Arg.int a] = .done ⟨[(a % 256).toNat], 1⟩ ∧
    ft_printf fuel (bytes "%c") [Arg.int 0] = .done ⟨[0], 1⟩ := by
  have h := handle_format_c fuel a rest
  have h0 := handle_format_c fuel 0 rest
  have hp : ∀ b : Int, ft_printf fuel (bytes "%c") [Arg.int b] =
      .done ⟨[(b % 256).toNat], 1⟩ := by
    intro b
    have hb : bytes "%c" = [Char.toNat '%', Char.toNat 'c'] := by decide
    rw [ft_printf, hb, ft_printf_loop, if_neg (by decide), if_pos ⟨rfl, by decide⟩,
      handle_format_c fuel b [], bind_done]
    rfl
  refine ⟨h, by omega, ?_, h0, hp a, hp 0⟩
  have hnn : 0 ≤ a % 256 := Int.emod_nonneg a (by decide)
  rw [Int.toNat_of_nonneg hnn]
  exact Int.mod_modEq a 256

/-! ## Zero in a base -/

/-- C17: for every alphabet of at least one symbol, `ft_putnbr_base` on the value `0`
makes no recursive call (a budget of one call is enough), writes exactly one byte, the
first symbol of the alphabet, and returns 1. -/
theorem ft_putnbr_base_zero (fuel : Nat) (base : List Nat) (hfuel : 1 ≤ fuel)
    (hbase : 0 ∉ base) (hN : 1 ≤ base.length) :
    ft_putnbr_base 1 0 base = .done ⟨[cstr_get base 0], 1⟩ ∧
    ft_putnbr_base fuel 0 base = .done ⟨[cstr_get base 0], 1⟩ ∧
    base.head? = some (cstr_get base 0) := by
  have hlen := cstr_len_eq_length base hbase
  have h0 : cstr_len base ≠ 0 := by omega
  have hlt : ¬ (0 ≥ cstr_len base) := by omega
  have key : ∀ f, ft_putnbr_base (f + 1) 0 base = .done ⟨[cstr_get base 0], 1⟩ := by
    intro f
    rw [ft_putnbr_base]
    simp only [h0, if_false, hlt, bind_done, Nat.zero_mod]
    rfl
  obtain ⟨f, rfl⟩ : ∃ f, fuel = f + 1 := ⟨fuel - 1, by omega⟩
  refine ⟨key 0, key f, ?_⟩
  cases base with
  | nil => simp at hN
  | cons b bs => rfl

/-- Witness for C17: the one-symbol alphabet `a`. -/
theorem ft_putnbr_base_zero_witness :
    (1 ≤ 1 ∧ 0 ∉ bytes "a" ∧ 1 ≤ (bytes "a").length) ∧
    ft_putnbr_base 1 0 (bytes "a") = .done ⟨[cstr_get (bytes "a") 0], 1⟩ :=
  ⟨by decide, (ft_putnbr_base_zero 1 (bytes "a") (by decide) (by decide) (by decide)).1⟩

/-! ## Negative integers read as unsigned -/

/-- C18: a negative `int` `n` supplied where `u`, `x` or `X` reads an `unsigned int`
is rendered as its two's-complement reinterpretation `n + 2^32`; for example `-1` is
`4294967295` under `u` and `ffffffff` under `x`. -/
theorem negative_as_unsigned (fuel : Nat) (n : Int) (hfuel : 10 ≤ fuel)
    (hlo : INT_MIN ≤ n) (hneg : n < 0) :
    (∀ rest, handle_format fuel (Char.toNat 'u') (Arg.int n :: rest) =
      .done (⟨decimal (n + 4294967296).toNat, ((decimal (n + 4294967296).toNat).length : Nat)⟩,
        rest)) ∧
    (∀ rest, handle_format fuel (Char.toNat 'x') (Arg.int n :: rest) =
      .done (⟨hex_lower (n + 4294967296).toNat,
        ((hex_lower (n + 4294967296).toNat).length : Nat)⟩, rest)) ∧
    (∀ rest, handle_format fuel (Char.toNat 'X') (Arg.int n :: rest) =
      .done (⟨hex_upper (n + 4294967296).toNat,
        ((hex_upper (n + 4294967296).toNat).length : Nat)⟩, rest)) ∧
    (∀ s rest, s = Char.toNat 'u' ∨ s = Char.toNat 'x' ∨ s = Char.toNat 'X' →
      handle_format fuel s (Arg.int n :: rest) =
        handle_format fuel s (Arg.uint (n + 4294967296).toNat :: rest)) ∧
    ((n + 4294967296).toNat : Int) = n % 4294967296 ∧
    (∀ rest, handle_format fuel (Char.toNat 'u') (Arg.int (-1) :: rest) =
      .done (⟨bytes "4294967295", 10⟩, rest)) ∧
    (∀ rest, handle_format fuel (Char.toNat 'x') (Arg.int (-1) :: rest) =
      .done (⟨bytes "ffffffff", 8⟩, rest)) := by
  unfold INT_MIN at hlo
  have hconv : ∀ m : Int, -2147483648 ≤ m → m < 0 →
      int_to_uint m = (m + 4294967296).toNat := by
    intro m h1 h2
    unfold int_to_uint
    omega
  have hrange : ∀ m : Int, -2147483648 ≤ m → m < 0 →
      (m + 4294967296).toNat < UINT_RANGE := by
    intro m h1 h2
    unfold UINT_RANGE
    omega
  have hsame : ∀ (m : Int) s rest, -2147483648 ≤ m → m < 0 →
      s = Char.toNat 'u' ∨ s = Char.toNat 'x' ∨ s = Char.toNat 'X' →
      handle_format fuel s (Arg.int m :: rest) =
        handle_format fuel s (Arg.uint (m + 4294967296).toNat :: rest) := by
    intro m s rest h1 h2 hs
    rcases hs with rfl | rfl | rfl <;>
      simp [handle_format, va_arg_uint, hconv m h1 h2]
  have hu : ∀ (m : Int) rest, -2147483648 ≤ m → m < 0 →
      handle_format fuel (Char.toNat 'u') (Arg.int m :: rest) =
      .done (⟨decimal (m + 4294967296).toNat, ((decimal (m + 4294967296).toNat).length : Nat)⟩,
        rest) := by
    intro m rest h1 h2
    rw [hsame m _ rest h1 h2 (Or.inl rfl),
      handle_format_u fuel _ rest hfuel (hrange m h1 h2), map_decimal_alphabet]
    simp [decimal]
  have hx : ∀ (m : Int) rest, -2147483648 ≤ m → m < 0 →
      handle_format fuel (Char.toNat 'x') (Arg.int m :: rest) =
      .done (⟨hex_lower (m + 4294967296).toNat,
        ((hex_lower (m + 4294967296).toNat).length : Nat)⟩, rest) := by
    intro m rest h1 h2
    rw [hsame m _ rest h1 h2 (Or.inr (Or.inl rfl)),
      handle_format_x fuel _ rest (by omega) (hrange m h1 h2), map_hex_lower_alphabet]
    simp [hex_lower]
  have hX : ∀ (m : Int) rest, -2147483648 ≤ m → m < 0 →
      handle_format fuel (Char.toNat 'X') (Arg.int m :: rest) =
      .done (⟨hex_upper (m + 4294967296).toNat,
        ((hex_upper (m + 4294967296).toNat).length : Nat)⟩, rest) := by
    intro m rest h1 h2
    rw [hsame m _ rest h1 h2 (Or.inr (Or.inr rfl)),
      handle_format_X fuel _ rest (by omega) (hrange m h1 h2), map_hex_upper_alphabet]
    simp [hex_upper]
  refine ⟨fun rest => hu n rest hlo hneg, fun rest => hx n rest hlo hneg,
    fun rest => hX n rest hlo hneg, fun s rest hs => hsame n s rest hlo hneg hs, by omega,
    ?_, ?_⟩
  · intro rest
    rw [hu (-1) rest (by decide) (by decide)]
    have hv : ((-1 : Int) + 4294967296).toNat = 4294967295 := by decide
    have : decimal 4294967295 = bytes "4294967295" := by
      have : numeral 10 4294967295 = [4, 2, 9, 4, 9, 6, 7, 2, 9, 5] := by simp [numeral]
      rw [decimal, this]; decide
    rw [hv, this]; rfl
  · intro rest
    rw [hx (-1) rest (by decide) (by decide)]
    have hv : ((-1 : Int) + 4294967296).toNat = 4294967295 := by decide
    have : hex_lower 4294967295 = bytes "ffffffff" := by
      have : numeral 16 4294967295 = [15, 15, 15, 15, 15, 15, 15, 15] := by simp [numeral]
      rw [hex_lower, this]; decide
    rw [hv, this]; rfl

/-- Witness for C18: the smallest `int` under `x`. -/
theorem negative_as_unsigned_witness :
    (10 ≤ 10 ∧ INT_MIN ≤ (-2147483648 : Int) ∧ (-2147483648 : Int) < 0 ∧
      handle_format 10 (Char.toNat 'x') [Arg.int (-2147483648)] =
        .done (⟨bytes "80000000", 8⟩, [])) ∧
    ∀ rest, handle_format 10 (Char.toNat 'x') (Arg.int (-2147483648) :: rest) =
      .done (⟨hex_lower ((-2147483648 : Int) + 4294967296).toNat,
        ((hex_lower ((-2147483648 : Int) + 4294967296).toNat).length : Nat)⟩, rest) :=
  ⟨by decide,
    (negative_as_unsigned 10 (-2147483648) (by decide) (by decide) (by decide)).2.1⟩

/-! ## Agreement between renderers -/

/-- On a non-negative value, the signed renderer and the unsigned renderer with the
decimal alphabet do the same under every budget. -/
theorem ft_putnbr_eq_base_decimal : ∀ (fuel m : Nat),
    ft_putnbr fuel (m : Int) = ft_putnbr_base fuel m (bytes "0123456789") := by
  intro fuel
  induction fuel with
  | zero => intro m; rfl
  | succ f ih =>
    intro m
    have h1 : ¬ ((m : Int) = -2147483648) := by omega
    have h2 : ¬ ((m : Int) < 0) := by omega
    have hlen : cstr_len (bytes "0123456789") = 10 := by decide
    have hdig : int_to_char (Int.tmod (m : Int) 10 + ((Char.toNat '0' : Nat) : Int))
        = cstr_get (bytes "0123456789") (m % 10) := by
      rw [decimal_symbol _ (Nat.mod_lt _ (by omega))]
      have h48 : Char.toNat '0' = 48 := by decide
      rw [h48]
      unfold int_to_char
      rw [Int.tmod_eq_emod (by omega) (by omega)]
      omega
    rw [ft_putnbr, ft_putnbr_base]
    simp only [h1, h2, if_false, bind_done, hlen, hdig]
    by_cases hge : m ≥ 10
    · have h3 : (m : Int) ≥ 10 := by omega
      have hdiv : Int.tdiv (m : Int) 10 = ((m / 10 : Nat) : Int) := by
        rw [Int.tdiv_eq_ediv (by omega) (by omega)]; omega
      simp only [h3, hge, if_true, hdiv, ih (m / 10)]
      cases ft_putnbr_base f (m / 10) (bytes "0123456789") with
      | done c => simp [bind_done, nil_seq]
      | undefined => rfl
      | nofuel => rfl
    · have h3 : ¬ ((m : Int) ≥ 10) := by omega
      simp [h3, hge, bind_done, nil_seq]

/-- C19: for every `n` with `0 ≤ n ≤ 2147483647`, `ft_putnbr` on `n` and
`ft_putnbr_base` on `n` with the alphabet `0123456789` write the same bytes and return
the same count (they agree under every budget, and return under a budget of 10); the
specifiers `d`, `i` and `u` agree on such a value. -/
theorem ft_putnbr_agrees_with_base (fuel : Nat) (n : Int) (hlo : 0 ≤ n) (hhi : n ≤ INT_MAX) :
    ft_putnbr fuel n = ft_putnbr_base fuel n.toNat (bytes "0123456789") ∧
    (10 ≤ fuel → ∃ e, ft_putnbr fuel n = .done e ∧
      ft_putnbr_base fuel n.toNat (bytes "0123456789") = .done e) ∧
    (∀ rest, handle_format fuel (Char.toNat 'd') (Arg.int n :: rest) =
      handle_format fuel (Char.toNat 'u') (Arg.uint n.toNat :: rest)) ∧
    (∀ rest, handle_format fuel (Char.toNat 'i') (Arg.int n :: rest) =
      handle_format fuel (Char.toNat 'u') (Arg.uint n.toNat :: rest)) ∧
    (∀ rest, handle_format fuel (Char.toNat 'd') (Arg.int n :: rest) =
      handle_format fuel (Char.toNat 'u') (Arg.int n :: rest)) := by
  obtain ⟨m, rfl⟩ : ∃ m : Nat, n = (m : Int) := ⟨n.toNat, by omega⟩
  have hm : ((m : Int)).toNat = m := by omega
  have hu : int_to_uint (m : Int) = m := by
    unfold INT_MAX at hhi
    unfold int_to_uint
    omega
  have key := ft_putnbr_eq_base_decimal fuel m
  rw [hm]
  refine ⟨key, ?_, ?_, ?_, ?_⟩
  · intro hfuel
    have hlo2 : INT_MIN ≤ (m : Int) := by unfold INT_MIN; omega
    exact ⟨_, ft_putnbr_eq fuel m hfuel hlo2 hhi, by rw [← key, ft_putnbr_eq fuel m hfuel hlo2 hhi]⟩
  · intro rest
    simp [handle_format, va_arg_int, va_arg_uint, bind_done, key]
  · intro rest
    simp [handle_format, va_arg_int, va_arg_uint, bind_done, key]
  · intro rest
    simp [handle_format, va_arg_int, va_arg_uint, bind_done, key, hu]

/-- Witness for C19: the largest `int`. -/
theorem ft_putnbr_agrees_with_base_witness :
    ((0 : Int) ≤ 2147483647 ∧ (2147483647 : Int) ≤ INT_MAX ∧
      ft_putnbr 10 2147483647 = .done ⟨bytes "2147483647", 10⟩) ∧
    ft_putnbr 10 2147483647 =
      ft_putnbr_base 10 (2147483647 : Int).toNat (bytes "0123456789") :=
  ⟨by decide, (ft_putnbr_agrees_with_base 10 2147483647 (by decide) (by decide)).1⟩

/-- The pointer helper and the unsigned renderer with the lowercase hexadecimal
alphabet do the same under every budget. -/
theorem ft_putptr_hex_eq_base : ∀ (fuel n : Nat),
    ft_putptr_hex fuel n = ft_putnbr_base fuel n (bytes "0123456789abcdef") := by
  intro fuel
  induction fuel with
  | zero => intro n; rfl
  | succ f ih =>
    intro n
    have hlen : cstr_len (bytes "0123456789abcdef") = 16 := by decide
    rw [ft_putptr_hex, ft_putnbr_base]
    simp only [hlen, ih (n / 16)]
    rfl

/-- C20: for every value `n` with `0 ≤ n < 2^32`, the pointer helper `ft_putptr_hex`
on `n` and `ft_putnbr_base` on `n` with the alphabet `0123456789abcdef` write the same
bytes and return the same count (they agree under every budget, and return under a
budget of 8). -/
theorem ft_putptr_hex_agrees_with_base (fuel n : Nat) (hn : n < UINT_RANGE) :
    ft_putptr_hex fuel n = ft_putnbr_base fuel n (bytes "0123456789abcdef") ∧
    (8 ≤ fuel → ∃ e, ft_putptr_hex fuel n = .done e ∧
      ft_putnbr_base fuel n (bytes "0123456789abcdef") = .done e ∧
      e.out = hex_lower n ∧ e.ret = ((hex_lower n).length : Nat)) := by
  have key := ft_putptr_hex_eq_base fuel n
  refine ⟨key, ?_⟩
  intro hfuel
  have h := ft_putnbr_base_16 fuel n (bytes "0123456789abcdef") (by decide) hfuel hn
  refine ⟨_, by rw [key, h], h, map_hex_lower_alphabet n, ?_⟩
  simp [hex_lower]

/-- Witness for C20: the largest `unsigned int`. -/
theorem ft_putptr_hex_agrees_with_base_witness :
    (4294967295 < UINT_RANGE ∧
      ft_putptr_hex 8 4294967295 = .done ⟨bytes "ffffffff", 8⟩) ∧
    ft_putptr_hex 8 4294967295 = ft_putnbr_base 8 4294967295 (bytes "0123456789abcdef") :=
  ⟨by decide, (ft_putptr_hex_agrees_with_base 8 4294967295 (by decide)).1⟩

/-! ## Termination of the unsigned renderer -/

/-- With a one-symbol alphabet and a value other than `0`, the unsigned renderer calls
itself on the same value again and never returns. -/
theorem ft_putnbr_base_unary (base : List Nat) (hN : cstr_len base = 1) :
    ∀ (fuel v : Nat), v ≠ 0 → ft_putnbr_base fuel v base = .nofuel := by
  intro fuel
  induction fuel with
  | zero => intro v _; rfl
  | succ f ih =>
    intro v hv
    have hge : v ≥ 1 := by omega
    rw [ft_putnbr_base]
    simp only [hN, Nat.one_ne_zero, if_false, hge, if_true, Nat.div_one, ih v hv]
    rfl

theorem numeral_length_le (N v k : Nat) (hN : 2 ≤ N) (hk : 1 ≤ k) (hv : v < N ^ k) :
    (numeral N v).length ≤ k := by
  unfold numeral
  split
  · simpa using hk
  · rename_i hv0
    simp only [List.length_reverse]
    have h1 := Nat.base_pow_length_digits_le N v (by omega) hv0
    have h2 : N * v < N ^ (k + 1) := by
      rw [pow_succ']
      exact Nat.mul_lt_mul_of_pos_left hv (by omega)
    have h3 : N ^ (Nat.digits N v).length < N ^ (k + 1) := lt_of_le_of_lt h1 h2
    have h4 := (Nat.pow_lt_pow_iff_right (by omega : 1 < N)).mp h3
    omega

theorem lt_pow_numeral_length (N v : Nat) (hN : 2 ≤ N) : v < N ^ (numeral N v).length := by
  unfold numeral
  split
  · rename_i h; subst h; simp; omega
  · simp only [List.length_reverse]
    exact Nat.lt_base_pow_length_digits (by omega)

/-- Counterexample for C14: the value `1` with the one-symbol alphabet `a` (length
`N = 1`) never returns, whatever the recursion budget. -/
theorem ft_putnbr_base_unary_never_returns :
    (1 ≤ (bytes "a").length ∧ 1 < UINT_RANGE) ∧
    ¬ ∃ (fuel : Nat) (e : Emit), ft_putnbr_base fuel 1 (bytes "a") = .done e := by
  refine ⟨by decide, ?_⟩
  rintro ⟨fuel, e, h⟩
  rw [ft_putnbr_base_unary (bytes "a") (by decide) fuel 1 (by decide)] at h
  exact Outcome.noConfusion h

/-- C14, amended: for every alphabet of `N ≥ 1` symbols and every `unsigned int` `v`,
the recursion of `ft_putnbr_base` terminates exactly when `N ≥ 2` or `v = 0`: it then
returns within 32 nested calls and writes between 1 and 32 symbols; with `N = 1` and
`v ≠ 0` no budget is enough. -/
theorem ft_putnbr_base_terminates (v : Nat) (base : List Nat) (hv : v < UINT_RANGE)
    (hbase : 0 ∉ base) (hN : 1 ≤ base.length) :
    (2 ≤ base.length ∨ v = 0 →
      ∃ e, (∀ fuel, 32 ≤ fuel → ft_putnbr_base fuel v base = .done e) ∧
        1 ≤ e.out.length ∧ e.out.length ≤ 32) ∧
    (base.length = 1 → v ≠ 0 → ∀ fuel, ft_putnbr_base fuel v base = .nofuel) := by
  have hlen := cstr_len_eq_length base hbase
  refine ⟨?_, ?_⟩
  · intro h
    by_cases h2 : 2 ≤ base.length
    · refine ⟨_, fun fuel hfuel =>
        ft_putnbr_base_returns fuel v base hfuel hv (by omega), ?_, ?_⟩
      · simpa using numeral_length_pos (cstr_len base) v (by omega)
      · have hpow : v < cstr_len base ^ 32 := by
          calc v < 2 ^ 32 := by unfold UINT_RANGE at hv; omega
            _ ≤ cstr_len base ^ 32 := Nat.pow_le_pow_left (by omega) 32
        simpa using numeral_length_le (cstr_len base) v 32 (by omega) (by omega) hpow
    · have hv0 : v = 0 := by
        rcases h with h | h
        · exact absurd h h2
        · exact h
      subst hv0
      have h0 : cstr_len base ≠ 0 := by omega
      have hlt : ¬ (0 ≥ cstr_len base) := by omega
      refine ⟨⟨[cstr_get base 0], 1⟩, ?_, by simp, by simp⟩
      intro fuel hfuel
      obtain ⟨f, rfl⟩ : ∃ f, fuel = f + 1 := ⟨fuel - 1, by omega⟩
      rw [ft_putnbr_base]
      simp only [h0, if_false, hlt, bind_done, Nat.zero_mod]
      rfl
  · intro h1 hv0 fuel
    exact ft_putnbr_base_unary base (by omega) fuel v hv0

/-- Witness for C14, amended: the largest `unsigned int` in binary. -/
theorem ft_putnbr_base_terminates_witness :
    (4294967295 < UINT_RANGE ∧ 0 ∉ bytes "01" ∧ 1 ≤ (bytes "01").length ∧
      2 ≤ (bytes "01").length) ∧
    ∃ e, (∀ fuel, 32 ≤ fuel → ft_putnbr_base fuel 4294967295 (bytes "01") = .done e) ∧
      1 ≤ e.out.length ∧ e.out.length ≤ 32 :=
  ⟨by decide,
    (ft_putnbr_base_terminates 4294967295 (bytes "01") (by decide) (by decide)
      (by decide)).1 (Or.inl (by decide))⟩

/-! ## Arithmetic of the signed renderer -/

/-- The traced renderer writes and returns what `ft_putnbr` does. -/
theorem ft_putnbr_traced_fst : ∀ (fuel : Nat) (n : Int),
    ((ft_putnbr_traced fuel n).bind fun p => .done p.1) = ft_putnbr fuel n := by
  intro fuel
  induction fuel with
  | zero => intro n; rfl
  | succ f ih =>
    intro n
    rw [ft_putnbr_traced, ft_putnbr]
    by_cases hmin : n = -2147483648
    · rw [if_pos hmin, if_pos hmin]; rfl
    · rw [if_neg hmin, if_neg hmin]
      have hne : ¬ (n = INT_MIN) := hmin
      by_cases hneg : n < 0
      · simp only [hneg, if_true, int_neg, hne, if_false, bind_done]
        by_cases hge : -n ≥ 10
        · simp only [hge, if_true]
          rw [← ih (Int.tdiv (-n) 10)]
          cases ft_putnbr_traced f (Int.tdiv (-n) 10) with
          | done y => rfl
          | undefined => rfl
          | nofuel => rfl
        · simp only [hge, if_false, bind_done]
      · simp only [hneg, if_false, bind_done]
        by_cases hge : n ≥ 10
        · simp only [hge, if_true]
          rw [← ih (Int.tdiv n 10)]
          cases ft_putnbr_traced f (Int.tdiv n 10) with
          | done y => rfl
          | undefined => rfl
          | nofuel => rfl
        · simp only [hge, if_false, bind_done]

/-- Steps of the body of `ft_putnbr` on a non-negative `int` operand `n1`. -/
theorem nbr_tail_safe (n1 : Int) (h0 : 0 ≤ n1) (h1 : n1 ≤ 2147483647) :
    (NbrStep.mod10 n1).safe ∧ (NbrStep.digit (Int.tmod n1 10)).safe ∧
      (NbrStep.div10 n1).safe ∧ (NbrStep.call (Int.tdiv n1 10)).safe ∧
      0 ≤ Int.tdiv n1 10 ∧ Int.tdiv n1 10 ≤ 2147483647 := by
  have hm : Int.tmod n1 10 = n1 % 10 := Int.tmod_eq_emod h0 (by omega)
  have hd : Int.tdiv n1 10 = n1 / 10 := Int.tdiv_eq_ediv h0 (by omega)
  have h48 : ((Char.toNat '0' : Nat) : Int) = 48 := by decide
  simp only [NbrStep.safe, in_int, INT_MIN, INT_MAX, hm, hd, h48]
  omega

/-- Every step recorded by a run of the signed renderer on an `int` is safe. -/
theorem ft_putnbr_traced_safe : ∀ (fuel : Nat) (n : Int) (e : Emit) (t : List NbrStep),
    in_int n → ft_putnbr_traced fuel n = .done (e, t) → ∀ s ∈ t, s.safe := by
  intro fuel
  induction fuel with
  | zero => intro n e t _ h; simp [ft_putnbr_traced] at h
  | succ f ih =>
    intro n e t hn h
    obtain ⟨hlo, hhi⟩ := hn
    unfold INT_MIN at hlo
    unfold INT_MAX at hhi
    rw [ft_putnbr_traced] at h
    by_cases hmin : n = -2147483648
    · rw [if_pos hmin] at h
      have ht := (Prod.mk.inj (Outcome.done.inj h)).2
      intro s hs
      rw [← ht] at hs
      simp at hs
    · rw [if_neg hmin] at h
      have hne : ¬ (n = INT_MIN) := hmin
      -- the operand after the sign has been handled
      have body : ∀ (n1 : Int) (t1 : List NbrStep) (c1 : Emit), 0 ≤ n1 → n1 ≤ 2147483647 →
          (∀ s ∈ t1, s.safe) →
          ((if n1 ≥ 10 then
              (ft_putnbr_traced f (Int.tdiv n1 10)).bind fun (c, t) =>
                .done (c, NbrStep.div10 n1 :: NbrStep.call (Int.tdiv n1 10) :: t)
            else .done (Emit.nil, [])).bind fun (c2, t2) =>
            Outcome.done ((c1.seq c2).seq
                (ft_putchar (int_to_char (Int.tmod n1 10 + Char.toNat '0'))),
              t1 ++ t2 ++ [NbrStep.mod10 n1, NbrStep.digit (Int.tmod n1 10)]))
            = .done (e, t) → ∀ s ∈ t, s.safe := by
        intro n1 t1 c1 h0 h1 ht1 hb
        obtain ⟨hs1, hs2, hs3, hs4, hq0, hq1⟩ := nbr_tail_safe n1 h0 h1
        obtain ⟨⟨c2, t2⟩, hrec, hb⟩ := bind_eq_done hb
        have ht := (Prod.mk.inj (Outcome.done.inj hb)).2
        have ht2 : ∀ s ∈ t2, s.safe := by
          by_cases hge : n1 ≥ 10
          · rw [if_pos hge] at hrec
            obtain ⟨⟨c, t'⟩, hr, hrec⟩ := bind_eq_done hrec
            have ht' := (Prod.mk.inj (Outcome.done.inj hrec)).2
            have hsafe := ih (Int.tdiv n1 10) c t'
              ⟨by unfold INT_MIN; omega, by unfold INT_MAX; omega⟩ hr
            intro s hs
            rw [← ht'] at hs
            rcases List.mem_cons.mp hs with rfl | hs
            · exact hs3
            rcases List.mem_cons.mp hs with rfl | hs
            · exact hs4
            · exact hsafe s hs
          · rw [if_neg hge] at hrec
            have ht' := (Prod.mk.inj (Outcome.done.inj hrec)).2
            intro s hs
            rw [← ht'] at hs
            simp at hs
        intro s hs
        rw [← ht] at hs
        rcases List.mem_append.mp hs with hs | hs
        · rcases List.mem_append.mp hs with hs | hs
          · exact ht1 s hs
          · exact ht2 s hs
        · rcases List.mem_cons.mp hs with rfl | hs
          · exact hs1
          · have : s = NbrStep.digit (Int.tmod n1 10) := by simpa using hs
            rw [this]; exact hs2
      by_cases hneg : n < 0
      · simp only [hneg, if_true, int_neg, hne, if_false, bind_done] at h
        refine body (-n) [NbrStep.neg n] _ (by omega) (by omega) ?_ h
        intro s hs
        have : s = NbrStep.neg n := by simpa using hs
        rw [this]
        refine ⟨hne, ?_, ?_⟩
        · unfold INT_MIN; omega
        · unfold INT_MAX; omega
      · simp only [hneg, if_false, bind_done] at h
        exact body n [] _ (by omega) hhi (fun s hs => by simp at hs) h

/-- C15: for every `int` `n`, a run of `ft_putnbr` returns without undefined behaviour:
the negation `n = -n` is never evaluated at `n = -2147483648`, every intermediate
value (`-n`, `n / 10`, `n % 10 + '0'`) is an `int`, `n % 10` is in `0..9`, and the
argument of every recursive call, at every depth, is in `0..214748364`. -/
theorem ft_putnbr_no_overflow (fuel : Nat) (n : Int) (hfuel : 10 ≤ fuel)
    (hlo : INT_MIN ≤ n) (hhi : n ≤ INT_MAX) :
    ∃ (e : Emit) (t : List NbrStep),
      ft_putnbr_traced fuel n = .done (e, t) ∧ ft_putnbr fuel n = .done e ∧
      (∀ s ∈ t, s.safe) ∧
      (∀ m, NbrStep.neg m ∈ t → m ≠ -2147483648 ∧ INT_MIN ≤ -m ∧ -m ≤ INT_MAX) ∧
      (∀ m, NbrStep.div10 m ∈ t → INT_MIN ≤ Int.tdiv m 10 ∧ Int.tdiv m 10 ≤ INT_MAX) ∧
      (∀ m, NbrStep.mod10 m ∈ t → 0 ≤ Int.tmod m 10 ∧ Int.tmod m 10 ≤ 9) ∧
      (∀ d, NbrStep.digit d ∈ t → INT_MIN ≤ d + 48 ∧ d + 48 ≤ INT_MAX) ∧
      (∀ a, NbrStep.call a ∈ t → 0 ≤ a ∧ a ≤ 214748364) := by
  have hdone := ft_putnbr_eq fuel n hfuel hlo hhi
  have hfst := ft_putnbr_traced_fst fuel n
  rw [hdone] at hfst
  obtain ⟨⟨e, t⟩, htr, he⟩ := bind_eq_done hfst
  have he' : e = ⟨decimal_int n, ((decimal_int n).length : Nat)⟩ := Outcome.done.inj he
  have hsafe := ft_putnbr_traced_safe fuel n e t ⟨hlo, hhi⟩ htr
  refine ⟨e, t, htr, by rw [hdone, he'], hsafe, ?_, ?_, ?_, ?_, ?_⟩
  · intro m hm; exact hsafe _ hm
  · intro m hm; exact hsafe _ hm
  · intro m hm; exact hsafe _ hm
  · intro d hd; exact hsafe _ hd
  · intro a ha; exact hsafe _ ha

/-- Witness for C15: the value `-2147483647`, whose negation is the largest `int`. -/
theorem ft_putnbr_no_overflow_witness :
    (10 ≤ 10 ∧ INT_MIN ≤ (-2147483647 : Int) ∧ (-2147483647 : Int) ≤ INT_MAX ∧
      ft_putnbr_traced 2 (-12) = .done (⟨bytes "-12", 3⟩,
        [NbrStep.neg (-12), NbrStep.div10 12, NbrStep.call 1, NbrStep.mod10 1,
          NbrStep.digit 1, NbrStep.mod10 12, NbrStep.digit 2])) ∧
    ∃ (e : Emit) (t : List NbrStep),
      ft_putnbr_traced 10 (-2147483647) = .done (e, t) ∧
      ft_putnbr 10 (-2147483647) = .done e ∧
      (∀ s ∈ t, s.safe) ∧
      (∀ m, NbrStep.neg m ∈ t → m ≠ -2147483648 ∧ INT_MIN ≤ -m ∧ -m ≤ INT_MAX) ∧
      (∀ m, NbrStep.div10 m ∈ t → INT_MIN ≤ Int.tdiv m 10 ∧ Int.tdiv m 10 ≤ INT_MAX) ∧
      (∀ m, NbrStep.mod10 m ∈ t → 0 ≤ Int.tmod m 10 ∧ Int.tmod m 10 ≤ 9) ∧
      (∀ d, NbrStep.digit d ∈ t → INT_MIN ≤ d + 48 ∧ d + 48 ≤ INT_MAX) ∧
      (∀ a, NbrStep.call a ∈ t → 0 ≤ a ∧ a ≤ 214748364) :=
  ⟨by decide, ft_putnbr_no_overflow 10 (-2147483647) (by decide) (by decide) (by decide)⟩

/-! ## Recursion depth -/

/-- With a budget too small for the digits of `v`, the unsigned renderer is cut short. -/
theorem ft_putnbr_base_short (base : List Nat) (hN : 2 ≤ cstr_len base) :
    ∀ (fuel v : Nat), cstr_len base ^ fuel ≤ v → ft_putnbr_base fuel v base = .nofuel := by
  intro fuel
  induction fuel with
  | zero => intro v _; rfl
  | succ f ih =>
    intro v hv
    have h0 : cstr_len base ≠ 0 := by omega
    have hge : v ≥ cstr_len base :=
      le_trans (Nat.le_self_pow (by omega) (cstr_len base)) hv
    have hq : cstr_len base ^ f ≤ v / cstr_len base := by
      rw [Nat.le_div_iff_mul_le (by omega)]
      rw [← pow_succ]; exact hv
    rw [ft_putnbr_base]
    simp only [h0, if_false, hge, if_true, ih _ hq]
    rfl

theorem pow_pred_numeral_length_le (N v : Nat) (hN : 2 ≤ N) (hv : v ≠ 0) :
    N ^ ((numeral N v).length - 1) ≤ v := by
  have hlen : (numeral N v).length = (Nat.digits N v).length := by simp [numeral, hv]
  have hpos : 0 < (Nat.digits N v).length :=
    List.length_pos.mpr (Nat.digits_ne_nil_iff_ne_zero.mpr hv)
  have h1 := Nat.base_pow_length_digits_le N v (by omega) hv
  rw [hlen]
  have h2 : N ^ (Nat.digits N v).length = N * N ^ ((Nat.digits N v).length - 1) := by
    rw [← pow_succ']; congr 1; omega
  rw [h2] at h1
  exact Nat.le_of_mul_le_mul_left h1 (by omega)

/-- The recursion depth of the unsigned renderer is the number of digits it writes. -/
theorem ft_putnbr_base_depth (base : List Nat) (hN : 2 ≤ cstr_len base) (v : Nat) :
    returns_at_depth (fun f => ft_putnbr_base f v base) (numeral (cstr_len base) v).length
      ⟨(numeral (cstr_len base) v).map (cstr_get base),
        ((numeral (cstr_len base) v).length : Nat)⟩ := by
  have hpos := numeral_length_pos (cstr_len base) v hN
  constructor
  · intro j hj
    obtain ⟨f, rfl⟩ : ∃ f, j = f + 1 := ⟨j - 1, by omega⟩
    apply ft_putnbr_base_eq base hN f v
    exact lt_of_lt_of_le (lt_pow_numeral_length _ v hN)
      (Nat.pow_le_pow_right (by omega) hj)
  · intro j hj
    by_cases hv : v = 0
    · subst hv
      have : numeral (cstr_len base) 0 = [0] := by simp [numeral]
      rw [this] at hj
      have hj0 : j = 0 := by simpa using hj
      subst hj0
      rfl
    · apply ft_putnbr_base_short base hN j v
      exact le_trans (Nat.pow_le_pow_right (by omega) (by omega))
        (pow_pred_numeral_length_le _ v hN hv)

/-- On a negative `int` other than the smallest, the signed renderer writes `-` and
then does what it does on the opposite, under the same budget. -/
theorem ft_putnbr_neg : ∀ (fuel : Nat) (n : Int), n < 0 → n ≠ -2147483648 →
    ft_putnbr fuel n =
      (ft_putnbr fuel (-n)).bind fun e => .done ((ft_putchar (Char.toNat '-')).seq e) := by
  intro fuel n hneg hmin
  cases fuel with
  | zero => rfl
  | succ f =>
    have hne : ¬ (n = INT_MIN) := hmin
    have h1 : ¬ (-n = -2147483648) := by omega
    have h2 : ¬ (-n < 0) := by omega
    rw [ft_putnbr, ft_putnbr]
    simp only [hmin, hneg, h1, h2, if_false, if_true, int_neg, hne, bind_done]
    cases (if -n ≥ 10 then ft_putnbr f (Int.tdiv (-n) 10) else Outcome.done Emit.nil) with
    | done c2 => simp only [bind_done, nil_seq, seq_assoc]
    | undefined => rfl
    | nofuel => rfl

/-- On the smallest `int` the signed renderer returns within one call. -/
theorem ft_putnbr_int_min_depth :
    returns_at_depth (fun f => ft_putnbr f (-2147483648)) 1 ⟨bytes "-2147483648", 11⟩ := by
  constructor
  · intro j hj
    obtain ⟨f, rfl⟩ : ∃ f, j = f + 1 := ⟨j - 1, by omega⟩
    show ft_putnbr (f + 1) (-2147483648) = _
    rw [ft_putnbr, if_pos rfl]
    decide
  · intro j hj
    have hj0 : j = 0 := by omega
    subst hj0
    rfl

/-- The recursion depth of the signed renderer on an `int` other than the smallest is
the number of digits it writes. -/
theorem ft_putnbr_depth (n : Int) (hlo : INT_MIN < n) :
    returns_at_depth (fun f => ft_putnbr f n) (decimal n.natAbs).length
      ⟨decimal_int n, ((decimal_int n).length : Nat)⟩ := by
  unfold INT_MIN at hlo
  have hlen : cstr_len (bytes "0123456789") = 10 := by decide
  have hd := ft_putnbr_base_depth (bytes "0123456789") (by decide) n.natAbs
  rw [hlen, map_decimal_alphabet] at hd
  have hdl : (decimal n.natAbs).length = (numeral 10 n.natAbs).length := by simp [decimal]
  rw [hdl]
  have hd1 : ∀ j, (numeral 10 n.natAbs).length ≤ j →
      ft_putnbr_base j n.natAbs (bytes "0123456789") =
        .done ⟨decimal n.natAbs, ((numeral 10 n.natAbs).length : Nat)⟩ := hd.1
  have hd2 : ∀ j, j < (numeral 10 n.natAbs).length →
      ft_putnbr_base j n.natAbs (bytes "0123456789") = .nofuel := hd.2
  by_cases hneg : n < 0
  · have hn : -n = (n.natAbs : Int) := by omega
    have hrw : ∀ j, ft_putnbr j n = (ft_putnbr_base j n.natAbs (bytes "0123456789")).bind
        fun e => .done ((ft_putchar (Char.toNat '-')).seq e) := by
      intro j
      rw [ft_putnbr_neg j n hneg (by omega), hn, ft_putnbr_eq_base_decimal]
    constructor
    · intro j hj
      show ft_putnbr j n = _
      rw [hrw j, hd1 j hj, bind_done]
      simp [decimal_int, hneg, Emit.seq, ft_putchar, write, decimal]
      omega
    · intro j hj
      show ft_putnbr j n = _
      rw [hrw j, hd2 j hj]
      rfl
  · have hn : n = (n.natAbs : Int) := by omega
    have hrw : ∀ j, ft_putnbr j n = ft_putnbr_base j n.natAbs (bytes "0123456789") := by
      intro j
      conv_lhs => rw [hn]
      exact ft_putnbr_eq_base_decimal j n.natAbs
    constructor
    · intro j hj
      show ft_putnbr j n = _
      rw [hrw j, hd1 j hj]
      simp [decimal_int, hneg, decimal]
    · intro j hj
      show ft_putnbr j n = _
      rw [hrw j, hd2 j hj]

/-- Counterexample for C16: on `-2147483648` the recursion depth of `ft_putnbr` is 1
(it returns within one call, through `ft_putstr`), while 10 digits are written; the
depth is not the number of digits. -/
theorem ft_putnbr_int_min_depth_not_digits :
    (INT_MIN ≤ (-2147483648 : Int) ∧ (-2147483648 : Int) ≤ INT_MAX) ∧
    ft_putnbr 1 (-2147483648) = .done ⟨bytes "-2147483648", 11⟩ ∧
    ft_putnbr 0 (-2147483648) = .nofuel ∧
    ((bytes "-2147483648").filter fun c =>
      decide (Char.toNat '0' ≤ c ∧ c ≤ Char.toNat '9')).length = 10 ∧
    ¬ ∃ e, returns_at_depth (fun f => ft_putnbr f (-2147483648)) 10 e := by
  refine ⟨by decide, by decide, by decide, by decide, ?_⟩
  rintro ⟨e, _, h⟩
  have h1 := h 1 (by decide)
  have h2 : ft_putnbr 1 (-2147483648) = .done ⟨bytes "-2147483648", 11⟩ := by decide
  have h3 : ft_putnbr 1 (-2147483648) = .nofuel := h1
  rw [h2] at h3
  exact Outcome.noConfusion h3

/-- C16, amended: for every renderer call reachable from `handle_format` the recursion
depth is at most 20: at most 10 for `d`, `i`, `u`, at most 8 for `x`, `X`, and at most
16 for `p`.  It is equal to the number of digits written for `ft_putnbr` on every
`int` other than `-2147483648`, for `ft_putnbr_base` on an `unsigned int` with the
decimal and both hexadecimal alphabets, and for `ft_putptr_hex` on a 64-bit address;
on `-2147483648`, `ft_putnbr` returns at depth 1. -/
theorem recursion_depth_bounds :
    (∀ n : Int, INT_MIN < n → n ≤ INT_MAX →
      returns_at_depth (fun f => ft_putnbr f n) (decimal n.natAbs).length
        ⟨decimal_int n, ((decimal_int n).length : Nat)⟩ ∧
      (decimal n.natAbs).length ≤ 10) ∧
    returns_at_depth (fun f => ft_putnbr f (-2147483648)) 1 ⟨bytes "-2147483648", 11⟩ ∧
    (∀ v : Nat, v < UINT_RANGE →
      returns_at_depth (fun f => ft_putnbr_base f v (bytes "0123456789")) (decimal v).length
        ⟨decimal v, ((decimal v).length : Nat)⟩ ∧
      (decimal v).length ≤ 10) ∧
    (∀ v : Nat, v < UINT_RANGE →
      returns_at_depth (fun f => ft_putnbr_base f v (bytes "0123456789abcdef"))
        (hex_lower v).length ⟨hex_lower v, ((hex_lower v).length : Nat)⟩ ∧
      (hex_lower v).length ≤ 8) ∧
    (∀ v : Nat, v < UINT_RANGE →
      returns_at_depth (fun f => ft_putnbr_base f v (bytes "0123456789ABCDEF"))
        (hex_upper v).length ⟨hex_upper v, ((hex_upper v).length : Nat)⟩ ∧
      (hex_upper v).length ≤ 8) ∧
    (∀ a : Nat, a < ULONG_RANGE →
      returns_at_depth (fun f => ft_putptr_hex f a) (hex_lower a).length
        ⟨hex_lower a, ((hex_lower a).length : Nat)⟩ ∧
      (hex_lower a).length ≤ 16) := by
  have hl10 : cstr_len (bytes "0123456789") = 10 := by decide
  have hl16 : cstr_len (bytes "0123456789abcdef") = 16 := by decide
  have hL16 : cstr_len (bytes "0123456789ABCDEF") = 16 := by decide
  have hdec : ∀ v, (decimal v).length = (numeral 10 v).length := by
    intro v; simp [decimal]
  have hlow : ∀ v, (hex_lower v).length = (numeral 16 v).length := by
    intro v; simp [hex_lower]
  have hupp : ∀ v, (hex_upper v).length = (numeral 16 v).length := by
    intro v; simp [hex_upper]
  refine ⟨?_, ft_putnbr_int_min_depth, ?_, ?_, ?_, ?_⟩
  · intro n hlo hhi
    refine ⟨ft_putnbr_depth n hlo, ?_⟩
    rw [hdec]
    apply numeral_length_le 10 _ 10 (by omega) (by omega)
    unfold INT_MIN at hlo
    unfold INT_MAX at hhi
    omega
  · intro v hv
    have h := ft_putnbr_base_depth (bytes "0123456789") (by decide) v
    rw [hl10, map_decimal_alphabet, ← hdec] at h
    refine ⟨h, ?_⟩
    rw [hdec]
    apply numeral_length_le 10 _ 10 (by omega) (by omega)
    unfold UINT_RANGE at hv
    omega
  · intro v hv
    have h := ft_putnbr_base_depth (bytes "0123456789abcdef") (by decide) v
    rw [hl16, map_hex_lower_alphabet, ← hlow] at h
    refine ⟨h, ?_⟩
    rw [hlow]
    apply numeral_length_le 16 _ 8 (by omega) (by omega)
    unfold UINT_RANGE at hv
    omega
  · intro v hv
    have h := ft_putnbr_base_depth (bytes "0123456789ABCDEF") (by decide) v
    rw [hL16, map_hex_upper_alphabet, ← hupp] at h
    refine ⟨h, ?_⟩
    rw [hupp]
    apply numeral_length_le 16 _ 8 (by omega) (by omega)
    unfold UINT_RANGE at hv
    omega
  · intro a ha
    have h := ft_putnbr_base_depth (bytes "0123456789abcdef") (by decide) a
    rw [hl16, map_hex_lower_alphabet, ← hlow] at h
    have hfun : (fun f => ft_putptr_hex f a)
        = fun f => ft_putnbr_base f a (bytes "0123456789abcdef") := by
      funext f; exact ft_putptr_hex_eq_base f a
    rw [hfun]
    refine ⟨h, ?_⟩
    rw [hlow]
    apply numeral_length_le 16 _ 16 (by omega) (by omega)
    unfold ULONG_RANGE at ha
    omega

/-- Witness for C16, amended: the value `-2147483647` has depth 10. -/
theorem recursion_depth_bounds_witness :
    (INT_MIN < (-2147483647 : Int) ∧ (-2147483647 : Int) ≤ INT_MAX ∧
      ft_putnbr 10 (-2147483647) = .done ⟨bytes "-2147483647", 11⟩ ∧
      ft_putnbr 9 (-2147483647) = .nofuel) ∧
    returns_at_depth (fun f => ft_putnbr f (-2147483647))
        (decimal (-2147483647 : Int).natAbs).length
        ⟨decimal_int (-2147483647), ((decimal_int (-2147483647)).length : Nat)⟩ ∧
      (decimal (-2147483647 : Int).natAbs).length ≤ 10 :=
  ⟨by decide, recursion_depth_bounds.1 (-2147483647) (by decide) (by decide)⟩

/-! ## The two copies of the formatter -/

theorem getD_eq_headD_drop : ∀ (s : List Nat) (k : Nat), s.getD k 0 = (s.drop k).headD 0 := by
  intro s
  induction s with
  | nil => intro k; simp
  | cons c cs ih =>
    intro k
    cases k with
    | zero => rfl
    | succ k => simp [ih k]

theorem drop_succ_eq_tail_drop : ∀ (s : List Nat) (k : Nat),
    s.drop (k + 1) = (s.drop k).tail := by
  intro s
  induction s with
  | nil => intro k; simp
  | cons c cs ih =>
    intro k
    cases k with
    | zero => rfl
    | succ k => simp

/-- The index loop of the `src/libftc` copy, started at index `k` with enough tests
left, writes what the suffix loop of the other copy writes on the suffix at `k`, and
ends with `count` advanced by the number of bytes written. -/
theorem libftc_putstr_loop_eq (s : List Nat) : ∀ (tests k : Nat),
    (s.drop k).length < tests →
      Libftc.ft_putstr_loop s tests (k : Int) =
        ⟨(ft_putstr_loop (s.drop k)).out, (k : Int) + (ft_putstr_loop (s.drop k)).ret⟩ := by
  intro tests
  induction tests with
  | zero => intro k h; omega
  | succ n ih =>
    intro k h
    have hget : cstr_get s ((k : Int)).toNat = (s.drop k).headD 0 := by
      rw [Int.toNat_ofNat]; exact getD_eq_headD_drop s k
    have hnext := drop_succ_eq_tail_drop s k
    rw [Libftc.ft_putstr_loop, hget]
    cases hd : s.drop k with
    | nil => simp [ft_putstr_loop, Emit.nil]
    | cons c cs =>
      rw [hd] at h hnext
      simp only [List.headD_cons, List.tail_cons] at hnext ⊢
      by_cases hc : c = 0
      · simp [hc, ft_putstr_loop, Emit.nil]
      · have hlen : (s.drop (k + 1)).length < n := by
          rw [hnext]; simp only [List.length_cons] at h; omega
        have hcast : (k : Int) + (write [c]).ret = ((k + 1 : Nat) : Int) := by
          simp [write]
        simp only [hc, if_false, hcast, ih (k + 1) hlen, hnext, ft_putstr_loop]
        simp [write]
        omega

theorem libftc_putstr_eq (s : Option (List Nat)) : Libftc.ft_putstr s = ft_putstr s := by
  cases s with
  | none => rfl
  | some cs =>
    have h := libftc_putstr_loop_eq cs (cs.length + 1) 0 (by simp)
    simp only [List.drop_zero, Nat.cast_zero, zero_add] at h
    simp only [Libftc.ft_putstr, ft_putstr]
    exact h

theorem libftc_putchar_eq (c : Nat) : Libftc.ft_putchar c = ft_putchar c := rfl

theorem libftc_putnbr_eq : ∀ (fuel : Nat) (n : Int),
    Libftc.ft_putnbr fuel n = ft_putnbr fuel n := by
  intro fuel
  induction fuel with
  | zero => intro n; rfl
  | succ f ih =>
    intro n
    rw [Libftc.ft_putnbr, ft_putnbr]
    simp only [libftc_putstr_eq, libftc_putchar_eq, ih]

theorem libftc_putnbr_base_eq : ∀ (fuel n : Nat) (base : List Nat),
    Libftc.ft_putnbr_base fuel n base = ft_putnbr_base fuel n base := by
  intro fuel
  induction fuel with
  | zero => intro n base; rfl
  | succ f ih =>
    intro n base
    rw [Libftc.ft_putnbr_base, ft_putnbr_base]
    simp only [libftc_putchar_eq, ih]

theorem libftc_putptr_hex_eq : ∀ (fuel n : Nat),
    Libftc.ft_putptr_hex fuel n = ft_putptr_hex fuel n := by
  intro fuel
  induction fuel with
  | zero => intro n; rfl
  | succ f ih =>
    intro n
    rw [Libftc.ft_putptr_hex, ft_putptr_hex]
    simp only [libftc_putchar_eq, ih]

theorem libftc_putptr_eq (fuel a : Nat) : Libftc.ft_putptr fuel a = ft_putptr fuel a := by
  unfold Libftc.ft_putptr ft_putptr
  simp only [libftc_putstr_eq, libftc_putchar_eq, libftc_putptr_hex_eq]

theorem libftc_handle_format_eq (fuel s : Nat) (args : List Arg) :
    Libftc.handle_format fuel s args = handle_format fuel s args := by
  unfold Libftc.handle_format handle_format
  simp only [libftc_putstr_eq, libftc_putchar_eq, libftc_putptr_eq, libftc_putnbr_eq,
    libftc_putnbr_base_eq]

theorem libftc_printf_loop_eq (fuel : Nat) : ∀ (t : List Nat) (args : List Arg),
    Libftc.ft_printf_loop fuel t args = ft_printf_loop fuel t args := by
  intro t
  induction t using list_two_step with
  | h0 => intro args; rfl
  | h1 c => intro args; rfl
  | h2 c s rest ih1 ih2 =>
    intro args
    rw [Libftc.ft_printf_loop, ft_printf_loop]
    simp only [libftc_handle_format_eq, ih1, ih2]

/-- C21: on a sink that accepts every byte the two copies of the formatter are
observationally equivalent: for every string, null or not, the `ft_putstr` that adds
the return value of `write` to the index and the one that increments it write the
same bytes and return the same count, and for every template and argument list both
`ft_printf` do the same under every budget; on a template with matching arguments both
return, with the same bytes and the same count. -/
theorem copies_observationally_equivalent :
    (∀ s : Option (List Nat), Libftc.ft_putstr s = ft_putstr s) ∧
    (∀ (fuel : Nat) (t : List Nat) (args : List Arg),
      Libftc.ft_printf fuel t args = ft_printf fuel t args) ∧
    (∀ (fuel : Nat) (t : List Nat) (args : List Arg),
      Libftc.ft_printf_loop fuel t args = ft_printf_loop fuel t args) ∧
    (∀ (fuel : Nat) (t : List Nat) (args : List Arg), 16 ≤ fuel → 0 ∉ t →
      args_match (consumers (pieces t)) args →
      ∃ e : Emit, Libftc.ft_printf fuel t args = .done e ∧ ft_printf fuel t args = .done e ∧
        e.ret = (e.out.length : Nat)) := by
  have hp : ∀ (fuel : Nat) (t : List Nat) (args : List Arg),
      Libftc.ft_printf fuel t args = ft_printf fuel t args := by
    intro fuel t args
    rw [Libftc.ft_printf, ft_printf, libftc_printf_loop_eq]
  refine ⟨libftc_putstr_eq, hp, fun fuel => libftc_printf_loop_eq fuel, ?_⟩
  intro fuel t args hfuel ht hargs
  have h : ft_printf fuel t args = .done ⟨rec_text fuel (pieces t) args,
      ((rec_text fuel (pieces t) args).length : Nat)⟩ := by
    rw [ft_printf, ft_printf_loop_eq fuel hfuel t ht args hargs, bind_done]
  exact ⟨_, by rw [hp, h], h, rfl⟩

/-- Witness for C21: a template with a null string, the smallest `int` and a null
pointer, which reach `ft_putstr` in three ways. -/
theorem copies_observationally_equivalent_witness :
    (16 ≤ 16 ∧ 0 ∉ bytes "%s|%d|%p" ∧
      args_match (consumers (pieces (bytes "%s|%d|%p")))
        [Arg.str none, Arg.int (-2147483648), Arg.ptr 0] ∧
      Libftc.ft_printf 16 (bytes "%s|%d|%p") [Arg.str none, Arg.int (-2147483648), Arg.ptr 0] =
        .done ⟨bytes "(null)|-2147483648|0x0", 22⟩) ∧
    ∃ e : Emit,
      Libftc.ft_printf 16 (bytes "%s|%d|%p")
        [Arg.str none, Arg.int (-2147483648), Arg.ptr 0] = .done e ∧
      ft_printf 16 (bytes "%s|%d|%p")
        [Arg.str none, Arg.int (-2147483648), Arg.ptr 0] = .done e ∧
      e.ret = (e.out.length : Nat) :=
  ⟨by decide,
    copies_observationally_equivalent.2.2.2 16 (bytes "%s|%d|%p")
      [Arg.str none, Arg.int (-2147483648), Arg.ptr 0] (by decide) (by decide) (by decide)⟩

end FtPrintf
